import Mathlib

/-!
# customaccesslog: the access-log line formatter

A shallow embedding of `custom_logging.go` and `ignore.go`.

Go strings and `[]byte` are byte sequences: `List Byte` with `Byte = Fin 256`.
Runes (`int32`) are natural numbers; every rune the decoder produces lies in
`[0, 0x10FFFF]`, so no signed arithmetic is involved.

The pieces of the Go standard library the formatter calls are embedded from
their library sources (`unicode/utf8`, the Latin-1 fast path of
`strconv.IsPrint`, `net.SplitHostPort`, `strconv.Itoa`).  What depends on data
outside the repository is a parameter: the Unicode tables behind
`strconv.IsPrint` above Latin-1 (`tab`), the rendering of a timestamp, the
clock, and the regular-expression engine.
-/

namespace Customaccesslog

/-! ## Bytes and literals -/

/-- A Go `byte`. -/
abbrev Byte := Fin 256

/-- The conversion `byte(x)`: truncation to the low eight bits. -/
def toByte (n : Nat) : Byte := ⟨n % 256, Nat.mod_lt n (by decide)⟩

/-- The bytes of an ASCII string literal of the source. -/
def lit (s : String) : List Byte := s.toList.map (fun c => toByte c.toNat)

/-- `const lowerhex = "0123456789abcdef"`. -/
def lowerhex : List Byte :=
  [0x30, 0x31, 0x32, 0x33, 0x34, 0x35, 0x36, 0x37, 0x38, 0x39,
   0x61, 0x62, 0x63, 0x64, 0x65, 0x66]

/-- The expression `lowerhex[s[0]>>4]`; the index is below 16 for every byte. -/
def hexHi (b : Byte) : Byte :=
  lowerhex.get ⟨b.val >>> 4, by
    have h := b.isLt
    simp only [lowerhex, List.length_cons, List.length_nil, Nat.shiftRight_eq_div_pow]
    omega⟩

/-- The expression `lowerhex[x&0xF]` (`x` is `s[0]` or `r>>uint(s)`); the index
is below 16 for every `x`. -/
def hexLo (x : Nat) : Byte :=
  lowerhex.get ⟨x &&& 0xF, Nat.lt_succ_of_le Nat.and_le_right⟩

/-! ## `unicode/utf8` -/

/-- `utf8.RuneSelf`. -/
def RuneSelf : Nat := 0x80
/-- `utf8.RuneError`. -/
def RuneError : Nat := 0xFFFD
/-- `utf8.MaxRune`. -/
def MaxRune : Nat := 0x10FFFF

/-- The table `first` of `unicode/utf8`: information about the first byte of
an encoding (`as = 0xF0` ASCII, `xx = 0xF1` invalid, otherwise the accept-range
index in the high nibble and the size in the low one). -/
def first (b : Nat) : Nat :=
  if b < 0x80 then 0xF0
  else if b < 0xC2 then 0xF1
  else if b < 0xE0 then 0x02
  else if b = 0xE0 then 0x13
  else if b < 0xED then 0x03
  else if b = 0xED then 0x23
  else if b < 0xF0 then 0x03
  else if b = 0xF0 then 0x34
  else if b < 0xF4 then 0x04
  else if b = 0xF4 then 0x44
  else 0xF1

/-- The table `acceptRanges` of `unicode/utf8` (sixteen entries, the last
eleven zero): the range `(lo, hi)` allowed for the second byte. -/
def acceptRanges (i : Nat) : Nat × Nat :=
  if i = 0 then (0x80, 0xBF)
  else if i = 1 then (0xA0, 0xBF)
  else if i = 2 then (0x80, 0x9F)
  else if i = 3 then (0x90, 0xBF)
  else if i = 4 then (0x80, 0x8F)
  else (0, 0)

/-- The byte `s[i]` of a string, read after the length check that guards it. -/
def byteAt (s : List Byte) (i : Nat) : Nat := (s.getD i 0).val

/-- `utf8.DecodeRuneInString`: the rune at the head of `s` and its width in
bytes; `(RuneError, 0)` on the empty string and `(RuneError, 1)` on a malformed
encoding. -/
def DecodeRuneInString (s : List Byte) : Nat × Nat :=
  let n := s.length
  if n < 1 then (RuneError, 0) else
  let s0 := byteAt s 0
  let x := first s0
  if x ≥ 0xF0 then
    -- `mask := rune(x) << 31 >> 31` is all ones when `x` is odd (`xx`), else zero
    (if x % 2 = 1 then RuneError else s0, 1)
  else
  let sz := x &&& 7
  let accept := acceptRanges (x >>> 4)
  if n < sz then (RuneError, 1) else
  let s1 := byteAt s 1
  if s1 < accept.1 ∨ accept.2 < s1 then (RuneError, 1) else
  if sz ≤ 2 then (((s0 &&& 0x1F) <<< 6) ||| (s1 &&& 0x3F), 2) else
  let s2 := byteAt s 2
  if s2 < 0x80 ∨ 0xBF < s2 then (RuneError, 1) else
  if sz ≤ 3 then
    (((s0 &&& 0x0F) <<< 12) ||| ((s1 &&& 0x3F) <<< 6) ||| (s2 &&& 0x3F), 3) else
  let s3 := byteAt s 3
  if s3 < 0x80 ∨ 0xBF < s3 then (RuneError, 1) else
  (((s0 &&& 0x07) <<< 18) ||| ((s1 &&& 0x3F) <<< 12) ||| ((s2 &&& 0x3F) <<< 6)
    ||| (s3 &&& 0x3F), 4)

/-- The three-byte case of `utf8.EncodeRune`. -/
def encode3 (r : Nat) : List Byte :=
  [toByte (0xE0 ||| (r >>> 12) % 256),
   toByte (0x80 ||| ((r >>> 6) % 256 &&& 0x3F)),
   toByte (0x80 ||| (r % 256 &&& 0x3F))]

/-- `utf8.EncodeRune`: the bytes written for `r` (the returned count is the
length of the list). -/
def EncodeRune (r : Nat) : List Byte :=
  if r ≤ 0x7F then [toByte r]
  else if r ≤ 0x7FF then
    [toByte (0xC0 ||| (r >>> 6) % 256), toByte (0x80 ||| (r % 256 &&& 0x3F))]
  else if r > MaxRune ∨ (0xD800 ≤ r ∧ r ≤ 0xDFFF) then encode3 RuneError
  else if r ≤ 0xFFFF then encode3 r
  else
    [toByte (0xF0 ||| (r >>> 18) % 256),
     toByte (0x80 ||| ((r >>> 12) % 256 &&& 0x3F)),
     toByte (0x80 ||| ((r >>> 6) % 256 &&& 0x3F)),
     toByte (0x80 ||| (r % 256 &&& 0x3F))]

/-- `utf8.ValidRune`: a code point that can be encoded (in range, not a
surrogate half). -/
def ValidRune (r : Nat) : Bool :=
  if r < 0xD800 then true
  else if 0xDFFF < r ∧ r ≤ MaxRune then true
  else false

/-! ## `strconv.IsPrint` -/

/-- `strconv.IsPrint`: the Latin-1 fast path is the library's; above `0xFF`
the answer comes from the Unicode tables of the Go release, the parameter
`tab`. -/
def IsPrint (tab : Nat → Bool) (r : Nat) : Bool :=
  if r ≤ 0xFF then
    if 0x20 ≤ r ∧ r ≤ 0x7E then true
    else if 0xA1 ≤ r ∧ r ≤ 0xFF then r != 0xAD
    else false
  else tab r

/-! ## The escaper -/

/-- The loop `for s := hi; s >= 0; s -= 4 { buf = append(buf, lowerhex[r>>uint(s)&0xF]) }`,
over the shift amounts it visits. -/
def hexLoop (r : Nat) (shifts : List Nat) : List Byte :=
  shifts.map (fun s => hexLo (r >>> s))

/-- The body of the loop of `appendQuoted`: the bytes appended for the rune
`r` of width `width` decoded at the byte `s0 = s[0]`. -/
def quoteStep (tab : Nat → Bool) (s0 : Byte) (r width : Nat) : List Byte :=
  if width = 1 ∧ r = RuneError then
    lit "\\x" ++ [hexHi s0] ++ [hexLo s0.val]
  else if r = 0x22 ∨ r = 0x5C then
    [0x5C, toByte r]
  else if IsPrint tab r then
    EncodeRune r
  else if r = 0x07 then lit "\\a"
  else if r = 0x08 then lit "\\b"
  else if r = 0x0C then lit "\\f"
  else if r = 0x0A then lit "\\n"
  else if r = 0x0D then lit "\\r"
  else if r = 0x09 then lit "\\t"
  else if r = 0x0B then lit "\\v"
  else if r < 0x20 then
    lit "\\x" ++ [hexHi s0] ++ [hexLo s0.val]
  else if r > MaxRune then
    lit "\\u" ++ hexLoop 0xFFFD [12, 8, 4, 0]
  else if r < 0x10000 then
    lit "\\u" ++ hexLoop r [12, 8, 4, 0]
  else
    lit "\\U" ++ hexLoop r [28, 24, 20, 16, 12, 8, 4, 0]

/-- The head of the loop body: `r := rune(s[0]); width = 1;
if r >= utf8.RuneSelf { r, width = utf8.DecodeRuneInString(s) }`. -/
def decodeHead (s : List Byte) : Nat × Nat :=
  if byteAt s 0 ≥ RuneSelf then DecodeRuneInString s else (byteAt s 0, 1)

/-- The loop of `appendQuoted`, `for width := 0; len(s) > 0; s = s[width:]`.
Every iteration consumes at least one byte, so `len(s)` iterations suffice
(`appendQuotedLoop_fuel`). -/
def appendQuotedLoop (tab : Nat → Bool) : Nat → List Byte → List Byte → List Byte
  | 0, buf, _ => buf
  | _ + 1, buf, [] => buf
  | fuel + 1, buf, s0 :: rest =>
    let rw := decodeHead (s0 :: rest)
    appendQuotedLoop tab fuel (buf ++ quoteStep tab s0 rw.1 rw.2) ((s0 :: rest).drop rw.2)

/-- `appendQuoted(buf, s)`. -/
def appendQuoted (tab : Nat → Bool) (buf : List Byte) (s : List Byte) : List Byte :=
  appendQuotedLoop tab s.length buf s

/-! ## `net.SplitHostPort` and `strconv.Itoa` -/

/-- `bytealg.IndexByteString`: the index of the first `c` in `s`, or `-1`. -/
def IndexByteString (s : List Byte) (c : Byte) : Int :=
  if c ∈ s then (s.indexOf c : Int) else -1

/-- `bytealg.LastIndexByteString`: the index of the last `c` in `s`, or `-1`. -/
def LastIndexByteString (s : List Byte) (c : Byte) : Int :=
  if c ∈ s then ((s.length - 1 - s.reverse.indexOf c : Nat) : Int) else -1

/-- `net.SplitHostPort`: `some (host, port)`, or `none` where the library
returns an error (the formatter only tests `err != nil`). -/
def SplitHostPort (hostport : List Byte) : Option (List Byte × List Byte) :=
  -- the port starts after the last colon
  let i := LastIndexByteString hostport 0x3A
  if i < 0 then none
  else if byteAt hostport 0 = 0x5B then
    -- expect the first ']' just before the last ':'
    let e := IndexByteString hostport 0x5D
    if e < 0 then none
    else if e + 1 = hostport.length then none
    else if e + 1 = i then
      let host := (hostport.take e.toNat).drop 1
      if IndexByteString (hostport.drop 1) 0x5B ≥ 0 then none
      else if IndexByteString (hostport.drop (e + 1).toNat) 0x5D ≥ 0 then none
      else some (host, hostport.drop (i + 1).toNat)
    else none
  else
    let host := hostport.take i.toNat
    if IndexByteString host 0x3A ≥ 0 then none
    else if IndexByteString hostport 0x5B ≥ 0 then none
    else if IndexByteString hostport 0x5D ≥ 0 then none
    else some (host, hostport.drop (i + 1).toNat)

/-- `strconv.Itoa`: the decimal digits of `n`, after a minus sign when
negative. -/
def Itoa (n : Int) : List Byte :=
  if n < 0 then 0x2D :: (Nat.toDigits 10 n.natAbs).map (fun c => toByte c.toNat)
  else (Nat.toDigits 10 n.natAbs).map (fun c => toByte c.toNat)

/-! ## Requests and their context -/

/-- `url.Userinfo`; only `Username()` is read. -/
structure Userinfo where
  username : List Byte

/-- `url.URL`, as far as the formatter reads it.  `requestURI` is the value
of the method `RequestURI()`. -/
structure URL where
  User : Option Userinfo
  Path : List Byte
  requestURI : List Byte

/-- A Go `error` value, as far as the formatter reads it: the message its
method `Error()` returns. -/
structure GoError where
  msg : List Byte

/-- `type CtxErr struct { Err error }`. -/
structure CtxErr where
  Err : Option GoError

/-- `func (e *CtxErr) Error() string`. -/
def CtxErr.Error (e : CtxErr) : List Byte :=
  match e.Err with
  | none => []
  | some err => err.msg

/-- The heap of `CtxErr` cells: what each address `&CtxErr{..}` holds. -/
abbrev Heap := Nat → CtxErr

/-- A request's `context.Context` at the two keys of the package, whose type
`ctxKey` is unexported: `errVal` is `ctx.Value(errKey)`, when present a
`*CtxErr`, and `targetVal` is `ctx.Value(targetKey)`, when present a `string`. -/
structure Context where
  errVal : Option Nat
  targetVal : Option (List Byte)

/-- `http.Request`, as far as the formatter reads it.  `Header` maps a
canonical header name to its values. -/
structure Request where
  Method : List Byte
  Proto : List Byte
  ProtoMajor : Int
  RequestURI : List Byte
  RemoteAddr : List Byte
  Host : List Byte
  Header : List Byte → List (List Byte)
  ctx : Context

/-- `http.Header.Get` at a canonical key: the first value, or the empty
string. -/
def Request.HeaderGet (r : Request) (key : List Byte) : List Byte :=
  match r.Header key with
  | [] => []
  | v :: _ => v

/-- `time.Time`, as far as the formatter reads it: `common` is the value of
`ts.Format("02/Jan/2006:15:04:05 -0700")`. -/
structure Time where
  common : List Byte

/-- `handlers.LogFormatterParams`. -/
structure LogFormatterParams where
  Request : Request
  URL : URL
  TimeStamp : Time
  StatusCode : Int
  Size : Int

/-! ## The ignore matcher -/

/-- A compiled `*regexp.Regexp`, by its method `Match`. -/
structure Regexp where
  Match : List Byte → Bool

/-- `type Ignores struct { ps []*regexp.Regexp }`. -/
structure Ignores where
  ps : List Regexp

/-- The loop of `Match`: `for _, re := range ps { if re.Match(b) { return true } }
return false`. -/
def matchLoop : List Regexp → List Byte → Bool
  | [], _ => false
  | re :: rest, b => if re.Match b then true else matchLoop rest b

/-- `func Match(str string) bool`, on the ignore set `defaultIgnores`. -/
def Match (defaultIgnores : Ignores) (str : List Byte) : Bool :=
  matchLoop defaultIgnores.ps str

/-- Modelled from the spec: `IsIgnore`, which `WriteCustomLog` calls and no
source file defines.  It is the specification's `IsIgnored(path)`: true when
any pattern of the current ignore set matches the path. -/
def IsIgnore (defaultIgnores : Ignores) (path : List Byte) : Bool :=
  Match defaultIgnores path

/-! ## The log line -/

/-- Lines 86-91 of `buildCommonLogLine`: the identity field. -/
def username (url : URL) : List Byte :=
  match url.User with
  | none => lit "-"
  | some u => if u.username ≠ [] then u.username else lit "-"

/-- Lines 93-97 of `buildCommonLogLine`: the client host. -/
def clientHost (req : Request) : List Byte :=
  match SplitHostPort req.RemoteAddr with
  | some (host, _) => host
  | none => req.RemoteAddr

/-- Lines 99-108 of `buildCommonLogLine`: the request target before the
backend annotation. -/
def requestTarget (req : Request) (url : URL) : List Byte :=
  let uri := req.RequestURI
  let uri := if req.ProtoMajor = 2 ∧ req.Method = lit "CONNECT" then req.Host else uri
  if uri = [] then url.requestURI else uri

/-- Lines 110-113 of `buildCommonLogLine`: the backend annotation. -/
def annotateBackend (ctx : Context) (uri : List Byte) : List Byte :=
  match ctx.targetVal with
  | some backend => uri ++ lit " --> " ++ backend
  | none => uri

/-- `buildCommonLogLine(req, url, ts, status, size)`. -/
def buildCommonLogLine (tab : Nat → Bool) (req : Request) (url : URL) (ts : Time)
    (status size : Int) : List Byte :=
  let username := username url
  let host := clientHost req
  let uri := annotateBackend req.ctx (requestTarget req url)
  let buf : List Byte := []
  let buf := buf ++ host
  let buf := buf ++ lit " - "
  let buf := buf ++ username
  let buf := buf ++ lit " ["
  let buf := buf ++ ts.common
  let buf := buf ++ lit "] \""
  let buf := buf ++ req.Method
  let buf := buf ++ lit " "
  let buf := appendQuoted tab buf uri
  let buf := buf ++ lit " "
  let buf := buf ++ req.Proto
  let buf := buf ++ lit "\" "
  let buf := buf ++ Itoa status
  let buf := buf ++ lit " "
  let buf := buf ++ Itoa size
  buf

/-- Lines 64-74 of `WriteCustomLog`: the line up to and including the trace
header.  `elapsed` is the value of `time.Now().Sub(params.TimeStamp).String()`. -/
def lineBeforeError (tab : Nat → Bool) (elapsed : List Byte) (params : LogFormatterParams) :
    List Byte :=
  let buf := buildCommonLogLine tab params.Request params.URL params.TimeStamp
    params.StatusCode params.Size
  let buf := buf ++ (lit " XFF(" ++ params.Request.HeaderGet (lit "X-Forwarded-For") ++ lit ")")
  let buf := buf ++ lit " host("
  let buf := buf ++ params.Request.Host
  let buf := buf ++ lit ")"
  let buf := buf ++ lit " upstream("
  let buf := buf ++ elapsed
  let buf := buf ++ lit ")"
  let traceCtx := params.Request.HeaderGet (lit "X-Cloud-Trace-Context")
  if traceCtx ≠ [] then buf ++ traceCtx else buf

/-- Lines 75-80 of `WriteCustomLog`: the error annotation. -/
def annotateError (heap : Heap) (ctx : Context) (buf : List Byte) : List Byte :=
  match ctx.errVal with
  | none => buf
  | some p =>
    let e := heap p
    if e.Err.isSome then buf ++ lit " err: " ++ e.Error else buf

/-- `WriteCustomLog(writer, params)`: the arguments of the calls of
`writer.Write`, in order.  The ignore set, the heap and the clock reading are
the state the function reads. -/
def WriteCustomLog (tab : Nat → Bool) (defaultIgnores : Ignores) (heap : Heap)
    (elapsed : List Byte) (params : LogFormatterParams) : List (List Byte) :=
  if IsIgnore defaultIgnores params.URL.Path then []
  else
    let buf := lineBeforeError tab elapsed params
    let buf := annotateError heap params.Request.ctx buf
    let buf := buf ++ [0x0A]
    [buf]

/-! ## Specification-level notions

The vocabulary the claims are stated in: well-formed UTF-8, the escape
grammar, hexadecimal digits. -/

/-- The second byte `b` is in the accept range of the lead byte `a` of a
three-byte encoding. -/
def lead3 (a b : Nat) : Prop :=
  (a = 0xE0 ∧ 0xA0 ≤ b ∧ b ≤ 0xBF) ∨ (0xE1 ≤ a ∧ a ≤ 0xEC ∧ 0x80 ≤ b ∧ b ≤ 0xBF) ∨
  (a = 0xED ∧ 0x80 ≤ b ∧ b ≤ 0x9F) ∨ (0xEE ≤ a ∧ a ≤ 0xEF ∧ 0x80 ≤ b ∧ b ≤ 0xBF)

/-- The second byte `b` is in the accept range of the lead byte `a` of a
four-byte encoding. -/
def lead4 (a b : Nat) : Prop :=
  (a = 0xF0 ∧ 0x90 ≤ b ∧ b ≤ 0xBF) ∨ (0xF1 ≤ a ∧ a ≤ 0xF3 ∧ 0x80 ≤ b ∧ b ≤ 0xBF) ∨
  (a = 0xF4 ∧ 0x80 ≤ b ∧ b ≤ 0x8F)

/-- The bytes at the head of `s` are a well-formed multi-byte encoding of the
rune `r` of width `w` (Unicode table 3-7, in arithmetic form). -/
def WellFormed (s : List Byte) (r w : Nat) : Prop :=
  (∃ a b t, s = a :: b :: t ∧ (0xC2 ≤ a.val ∧ a.val ≤ 0xDF) ∧ (0x80 ≤ b.val ∧ b.val ≤ 0xBF) ∧
    r = a.val % 32 * 64 + b.val % 64 ∧ w = 2) ∨
  (∃ a b c t, s = a :: b :: c :: t ∧ lead3 a.val b.val ∧ (0x80 ≤ c.val ∧ c.val ≤ 0xBF) ∧
    r = a.val % 16 * 4096 + b.val % 64 * 64 + c.val % 64 ∧ w = 3) ∨
  (∃ a b c d t, s = a :: b :: c :: d :: t ∧ lead4 a.val b.val ∧
    (0x80 ≤ c.val ∧ c.val ≤ 0xBF) ∧ (0x80 ≤ d.val ∧ d.val ≤ 0xBF) ∧
    r = a.val % 8 * 262144 + b.val % 64 * 4096 + c.val % 64 * 64 + d.val % 64 ∧ w = 4)

/-- The bytes of `s` start with a valid UTF-8 encoding: the encoding of some
valid code point is a prefix of `s`. -/
def StartsValid (s : List Byte) : Prop :=
  ∃ r, ValidRune r = true ∧ EncodeRune r <+: s

/-- A validly encodable printable character other than the double quote and
the backslash. -/
def PlainRune (tab : Nat → Bool) (r : Nat) : Bool :=
  ValidRune r && IsPrint tab r && (r != 0x22) && (r != 0x5C)

/-- The string made of the encodings of the code points `rs`. -/
def encodeString : List Nat → List Byte
  | [] => []
  | r :: rs => EncodeRune r ++ encodeString rs

/-- A lowercase hexadecimal digit, `0`-`9` or `a`-`f`. -/
def isLowerHex (b : Byte) : Bool :=
  (0x30 ≤ b.val && b.val ≤ 0x39) || (0x61 ≤ b.val && b.val ≤ 0x66)

/-- The characters that may follow a backslash in a two-character escape:
the double quote, the backslash, and `a b f n r t v`. -/
def simpleEscapes : List Byte := [0x22, 0x5C, 0x61, 0x62, 0x66, 0x6E, 0x72, 0x74, 0x76]

/-- A token of the escaper's output grammar: the encoding of a printable
character other than the double quote and the backslash, or a backslash
followed by one of the quote, the backslash, `a b f n r t v`, `x` and two hex
digits, `u` and four hex digits, `U` and eight hex digits. -/
def IsToken (tab : Nat → Bool) (t : List Byte) : Prop :=
  (∃ r, ValidRune r = true ∧ IsPrint tab r = true ∧ r ≠ 0x22 ∧ r ≠ 0x5C ∧ t = EncodeRune r) ∨
  (∃ c, c ∈ simpleEscapes ∧ t = [0x5C, c]) ∨
  (∃ ds : List Byte, ds.length = 2 ∧ (∀ d ∈ ds, isLowerHex d = true) ∧ t = 0x5C :: 0x78 :: ds) ∨
  (∃ ds : List Byte, ds.length = 4 ∧ (∀ d ∈ ds, isLowerHex d = true) ∧ t = 0x5C :: 0x75 :: ds) ∨
  (∃ ds : List Byte, ds.length = 8 ∧ (∀ d ∈ ds, isLowerHex d = true) ∧ t = 0x5C :: 0x55 :: ds)

/-- The lowercase hexadecimal digit of value `d < 16`. -/
def hexDigit (d : Nat) : Byte :=
  if d < 10 then toByte (0x30 + d) else toByte (0x61 + (d - 10))

/-- The value of a lowercase hexadecimal digit. -/
def hexDigitVal (b : Byte) : Nat :=
  if b.val ≤ 0x39 then b.val - 0x30 else b.val - 0x61 + 10

/-- The number a string of hexadecimal digits denotes, most significant digit
first. -/
def hexValue (ds : List Byte) : Nat :=
  ds.foldl (fun acc d => acc * 16 + hexDigitVal d) 0

/-- The `n` lowercase hexadecimal digits of `r`, most significant first,
padded with zeros. -/
def hexDigits : Nat → Nat → List Byte
  | 0, _ => []
  | n + 1, r => hexDigits n (r / 16) ++ [hexDigit (r % 16)]

/-- The escape the specification gives for a control byte `b < 0x20`: the
two-character escape for bell, backspace, tab, newline, vertical tab, form
feed and carriage return, and `\x` with the two lowercase hex digits of `b`
otherwise. -/
def controlEscape (b : Byte) : List Byte :=
  if b.val = 0x07 then [0x5C, 0x61]
  else if b.val = 0x08 then [0x5C, 0x62]
  else if b.val = 0x09 then [0x5C, 0x74]
  else if b.val = 0x0A then [0x5C, 0x6E]
  else if b.val = 0x0B then [0x5C, 0x76]
  else if b.val = 0x0C then [0x5C, 0x66]
  else if b.val = 0x0D then [0x5C, 0x72]
  else [0x5C, 0x78, hexDigit (b.val / 16), hexDigit (b.val % 16)]

/-- The escape the specification gives for a valid, non-printable code point
`r ≥ 0x20`: `\u` and four hex digits below `0x10000`, `\U` and eight hex digits
from there on. -/
def unicodeEscape (r : Nat) : List Byte :=
  if r < 0x10000 then [0x5C, 0x75] ++ hexDigits 4 r else [0x5C, 0x55] ++ hexDigits 8 r

/-- The terminal error recorded in the context of a request: the error held
by the `CtxErr` cell the context points to, if a context is attached and the
cell holds one. -/
def recordedError (heap : Heap) (ctx : Context) : Option GoError :=
  match ctx.errVal with
  | none => none
  | some p => (heap p).Err

/-- The error segment of the line: `" err: "` and the message of the recorded
error, nothing when none is recorded. -/
def errSegment (e : Option GoError) : List Byte :=
  match e with
  | some err => lit " err: " ++ err.msg
  | none => []

/-- The trace segment of the line: the first value of the header
`X-Cloud-Trace-Context` when the header is present and that value is not
empty, nothing otherwise. -/
def traceSegment (req : Request) : List Byte :=
  match req.Header (lit "X-Cloud-Trace-Context") with
  | [] => []
  | v :: _ => if v = [] then [] else v

/-- The letter of a two-character escape, read back: the byte `\a \b \f \n \r
\t \v` stand for, and the character itself after any other backslash. -/
def unescapeLetter (c : Byte) : Byte :=
  if c.val = 0x61 then 0x07
  else if c.val = 0x62 then 0x08
  else if c.val = 0x66 then 0x0C
  else if c.val = 0x6E then 0x0A
  else if c.val = 0x72 then 0x0D
  else if c.val = 0x74 then 0x09
  else if c.val = 0x76 then 0x0B
  else c

/-- The reader of the escape grammar: the input bytes the first token of
`out` stands for, and the rest of `out`. -/
def readToken (out : List Byte) : List Byte × List Byte :=
  match out with
  | [] => ([], [])
  | b :: t =>
    if b.val ≠ 0x5C then
      ((b :: t).take (decodeHead (b :: t)).2, (b :: t).drop (decodeHead (b :: t)).2)
    else
      match t with
      | [] => ([], [])
      | c :: u =>
        if c.val = 0x78 then ([toByte (hexValue (u.take 2))], u.drop 2)
        else if c.val = 0x75 then (EncodeRune (hexValue (u.take 4)), u.drop 4)
        else if c.val = 0x55 then (EncodeRune (hexValue (u.take 8)), u.drop 8)
        else ([unescapeLetter c], u)

/-! ## Registering ignore patterns -/

/-- `regexp.MustCompile(pattern)`: the compiled expression, or `none` when it
panics.  `compile` is `regexp.Compile` of the library, `none` standing for
its error. -/
def MustCompile (compile : List Byte → Option Regexp) (pattern : List Byte) : Option Regexp :=
  match compile pattern with
  | none => none
  | some re => some re

/-- The outcome of a call that may panic: the ignore set `defaultIgnores`
after the call, and whether the call panicked. -/
structure IgnoreOutcome where
  ignores : Ignores
  panicked : Bool

/-- `func Ignore(pattern string)`: `defaultIgnores.ps = append(defaultIgnores.ps,
regexp.MustCompile(pattern))`.  The argument of `append` is evaluated before
the assignment, so a panic of `MustCompile` leaves `defaultIgnores` as it was. -/
def Ignore (compile : List Byte → Option Regexp) (defaultIgnores : Ignores)
    (pattern : List Byte) : IgnoreOutcome :=
  match MustCompile compile pattern with
  | none => ⟨defaultIgnores, true⟩
  | some re => ⟨⟨defaultIgnores.ps ++ [re]⟩, false⟩

/-! ## The request context store -/

/-- The memory the context store works on: the `CtxErr` cells with the next
free address, and the `http.Request` values behind the request handles
(`*http.Request`) with the next free handle. -/
structure State where
  cells : Heap
  nextCell : Nat
  reqs : Nat → Request
  nextReq : Nat

/-- `r.WithContext(ctx)`: a new request handle holding a shallow copy of `*r`
with the context replaced. -/
def WithContext (st : State) (r : Nat) (ctx : Context) : State × Nat :=
  ({ st with
      reqs := fun q => if q = st.nextReq then { st.reqs r with ctx := ctx } else st.reqs q,
      nextReq := st.nextReq + 1 },
   st.nextReq)

/-- The handler `PrepareCustomLog(h)` on the request `r`, up to the call of
`h.ServeHTTP`: the state and the request handle `h` is served with, namely
`r.WithContext(context.WithValue(ctx, errKey, &CtxErr{nil}))`. -/
def PrepareCustomLog (st : State) (r : Nat) : State × Nat :=
  let ctx := (st.reqs r).ctx
  let p := st.nextCell
  let st1 : State :=
    { st with cells := fun q => if q = p then ⟨none⟩ else st.cells q, nextCell := p + 1 }
  WithContext st1 r { ctx with errVal := some p }

/-- `RecordBackend(r, be)`; `be` is the value of `be.String()`.  The result
is the state and the returned handle `newReq`. -/
def RecordBackend (st : State) (r : Nat) (be : List Byte) : State × Nat :=
  let ctx := (st.reqs r).ctx
  let ctx := { ctx with targetVal := some be }
  let res := WithContext st r ctx
  let st1 := res.1
  let newReq := res.2
  -- `*r = *newReq`
  ({ st1 with reqs := fun q => if q = r then st1.reqs newReq else st1.reqs q }, newReq)

/-- `RequestCtxWithError(r, err)`; a nil `err` is `none`. -/
def RequestCtxWithError (st : State) (r : Nat) (err : Option GoError) : State :=
  match (st.reqs r).ctx.errVal with
  | some p =>
    { st with cells := fun q => if q = p then { st.cells p with Err := err } else st.cells q }
  | none => st

/-- The specification's `ReadError(request)`. -/
def readError (st : State) (r : Nat) : Option GoError :=
  recordedError st.cells (st.reqs r).ctx

/-- The specification's `ReadBackend(request)`. -/
def readBackend (st : State) (r : Nat) : Option (List Byte) :=
  (st.reqs r).ctx.targetVal

/-- A call of the context store after the context is attached. -/
inductive Op where
  | recordBackend (r : Nat) (be : List Byte)
  | recordError (r : Nat) (err : Option GoError)

/-- The state after one call. -/
def Op.apply (st : State) : Op → State
  | Op.recordBackend r be => (RecordBackend st r be).1
  | Op.recordError r err => RequestCtxWithError st r err

/-- The state after a sequence of calls. -/
def runOps (st : State) (ops : List Op) : State :=
  ops.foldl Op.apply st

/-- The call records no error: it is not `RequestCtxWithError` with a nil
error. -/
def Op.keepsError : Op → Bool
  | Op.recordBackend _ _ => true
  | Op.recordError _ err => err.isSome

/-! ## Example inputs -/

/-- The timestamp `10/Oct/2000:13:55:36 -0700`. -/
def exampleTime : Time := ⟨lit "10/Oct/2000:13:55:36 -0700"⟩

/-- The request `GET uri HTTP/1.1` from the client `1.2.3.4:5555` for the host
`example.com`, without headers, with the context `ctx`. -/
def getRequest (uri : List Byte) (ctx : Context) : Request :=
  { Method := lit "GET", Proto := lit "HTTP/1.1", ProtoMajor := 1, RequestURI := uri,
    RemoteAddr := lit "1.2.3.4:5555", Host := lit "example.com", Header := fun _ => [],
    ctx := ctx }

/-- The parsed URL of a request for the path `path`, without user
information. -/
def pathURL (path : List Byte) : URL :=
  { User := none, Path := path, requestURI := path }

/-- The HTTP/2 request `CONNECT` with the host field `host` and the request
URI `/ignored`. -/
def connectRequest (host : List Byte) : Request :=
  { Method := lit "CONNECT", Proto := lit "HTTP/2.0", ProtoMajor := 2,
    RequestURI := lit "/ignored", RemoteAddr := lit "1.2.3.4:5555", Host := host,
    Header := fun _ => [], ctx := ⟨none, none⟩ }

/-- The regular expression `^` followed by the literal `p`, as compiled by
the library: it matches the strings that start with `p`. -/
def prefixRegexp (p : List Byte) : Regexp :=
  ⟨fun s => p.isPrefixOf s⟩

/-- The regular expression `^/xxx/[a-z0-9]+$`, as compiled by the library: it
matches `/xxx/` followed, up to the end, by one or more of `a`-`z`, `0`-`9`. -/
def xxxRegexp : Regexp :=
  ⟨fun s => (lit "/xxx/").isPrefixOf s && !(s.drop 5).isEmpty &&
    (s.drop 5).all (fun b => (0x61 ≤ b.val && b.val ≤ 0x7A) || (0x30 ≤ b.val && b.val ≤ 0x39))⟩

/-- The library's `regexp.Compile` on the patterns of the examples: `^/health`,
`^/aaa` and `^/xxx/[a-z0-9]+$` compile to the expressions above, and the
pattern `(`, an unclosed group, is a syntax error.  No other pattern occurs in
the examples; they are given no compiled form here. -/
def exampleCompile (pattern : List Byte) : Option Regexp :=
  if pattern = lit "^/health" then some (prefixRegexp (lit "/health"))
  else if pattern = lit "^/aaa" then some (prefixRegexp (lit "/aaa"))
  else if pattern = lit "^/xxx/[a-z0-9]+$" then some xxxRegexp
  else none

/-- The request `GET /foo` with the headers `X-Forwarded-For: 10.0.0.1` and
`X-Cloud-Trace-Context: abc/123`, and the context `ctx`. -/
def tracedRequest (ctx : Context) : Request :=
  { Method := lit "GET", Proto := lit "HTTP/1.1", ProtoMajor := 1, RequestURI := lit "/foo",
    RemoteAddr := lit "1.2.3.4:5555", Host := lit "example.com",
    Header := fun k =>
      if k = lit "X-Forwarded-For" then [lit "10.0.0.1"]
      else if k = lit "X-Cloud-Trace-Context" then [lit "abc/123"]
      else [],
    ctx := ctx }

/-- A state with one request, `GET /foo` at the handle `0`, no context
attached and no cell allocated. -/
def startState : State :=
  { cells := fun _ => ⟨none⟩, nextCell := 0,
    reqs := fun _ => getRequest (lit "/foo") ⟨none, none⟩, nextReq := 1 }

/-- The error with the message `boom`. -/
def boom : GoError := ⟨lit "boom"⟩

/-- The error with the message `late`. -/
def late : GoError := ⟨lit "late"⟩

/-! # Theorems -/

/-! ## Bit arithmetic -/

theorem and_mod (x k : Nat) : x &&& (2 ^ k - 1) = x % 2 ^ k := Nat.and_pow_two_sub_one_eq_mod x k

theorem and_31 (x : Nat) : x &&& 31 = x % 32 := and_mod x 5

theorem and_63 (x : Nat) : x &&& 63 = x % 64 := and_mod x 6

theorem and_15 (x : Nat) : x &&& 15 = x % 16 := and_mod x 4

theorem and_7 (x : Nat) : x &&& 7 = x % 8 := and_mod x 3

theorem or_add (x c k : Nat) (hx : x % 2 ^ k = 0) (hc : c < 2 ^ k) : x ||| c = x + c := by
  obtain ⟨a, rfl⟩ : 2 ^ k ∣ x := Nat.dvd_of_mod_eq_zero hx
  exact (Nat.mul_add_lt_is_or hc a).symm

theorem bits2 (a b : Nat) : ((a &&& 31) <<< 6) ||| (b &&& 63) = a % 32 * 64 + b % 64 := by
  rw [and_31, and_63, Nat.shiftLeft_eq, or_add _ _ 6 (by omega) (by omega)]

theorem bits3 (a b c : Nat) :
    ((a &&& 15) <<< 12) ||| ((b &&& 63) <<< 6) ||| (c &&& 63)
      = a % 16 * 4096 + b % 64 * 64 + c % 64 := by
  rw [and_15, and_63, and_63, Nat.shiftLeft_eq, Nat.shiftLeft_eq,
    or_add _ (b % 64 * 2 ^ 6) 12 (by omega) (by omega), or_add _ _ 6 (by omega) (by omega)]

theorem bits4 (a b c d : Nat) :
    ((a &&& 7) <<< 18) ||| ((b &&& 63) <<< 12) ||| ((c &&& 63) <<< 6) ||| (d &&& 63)
      = a % 8 * 262144 + b % 64 * 4096 + c % 64 * 64 + d % 64 := by
  rw [and_7, and_63, and_63, and_63, Nat.shiftLeft_eq, Nat.shiftLeft_eq, Nat.shiftLeft_eq,
    or_add _ (b % 64 * 2 ^ 12) 18 (by omega) (by omega),
    or_add _ (c % 64 * 2 ^ 6) 12 (by omega) (by omega), or_add _ _ 6 (by omega) (by omega)]

theorem toByte_val (n : Nat) : (toByte n).val = n % 256 := rfl

theorem toByte_congr {a b : Nat} (h : a % 256 = b % 256) : toByte a = toByte b :=
  Fin.ext h

theorem toByte_of_val (b : Byte) {n : Nat} (h : n % 256 = b.val) : toByte n = b :=
  Fin.ext h

/-! ## The decoder, case by case -/

theorem first_ascii {b : Nat} (h : b < 0x80) : first b = 0xF0 := by
  unfold first; rw [if_pos h]

theorem first_lowbad {b : Nat} (h : 0x80 ≤ b ∧ b < 0xC2) : first b = 0xF1 := by
  unfold first; rw [if_neg (by omega), if_pos (by omega)]

theorem first_two {b : Nat} (h : 0xC2 ≤ b ∧ b ≤ 0xDF) : first b = 0x02 := by
  unfold first; rw [if_neg (by omega), if_neg (by omega), if_pos (by omega)]

theorem first_e0 : first 0xE0 = 0x13 := by decide

theorem first_three {b : Nat} (h : (0xE1 ≤ b ∧ b ≤ 0xEC) ∨ (0xEE ≤ b ∧ b ≤ 0xEF)) :
    first b = 0x03 := by
  unfold first
  rcases h with h | h
  · rw [if_neg (by omega), if_neg (by omega), if_neg (by omega), if_neg (by omega),
      if_pos (by omega)]
  · rw [if_neg (by omega), if_neg (by omega), if_neg (by omega), if_neg (by omega),
      if_neg (by omega), if_neg (by omega), if_pos (by omega)]

theorem first_ed : first 0xED = 0x23 := by decide

theorem first_f0 : first 0xF0 = 0x34 := by decide

theorem first_four {b : Nat} (h : 0xF1 ≤ b ∧ b ≤ 0xF3) : first b = 0x04 := by
  unfold first
  rw [if_neg (by omega), if_neg (by omega), if_neg (by omega), if_neg (by omega),
    if_neg (by omega), if_neg (by omega), if_neg (by omega), if_neg (by omega), if_pos (by omega)]

theorem first_f4 : first 0xF4 = 0x44 := by decide

theorem first_highbad {b : Nat} (h : 0xF5 ≤ b) : first b = 0xF1 := by
  unfold first
  rw [if_neg (by omega), if_neg (by omega), if_neg (by omega), if_neg (by omega),
    if_neg (by omega), if_neg (by omega), if_neg (by omega), if_neg (by omega), if_neg (by omega),
    if_neg (by omega)]

/-- Unfolding of the decoder once the table entry of the lead byte is known. -/
theorem decode_unfold (a : Byte) (rest : List Byte) (x : Nat) (hx : first a.val = x)
    (hlt : x < 0xF0) :
    DecodeRuneInString (a :: rest) =
      if rest.length + 1 < x % 8 then (RuneError, 1) else
      if byteAt rest 0 < (acceptRanges (x / 16)).1 ∨ (acceptRanges (x / 16)).2 < byteAt rest 0
      then (RuneError, 1) else
      if x % 8 ≤ 2 then (a.val % 32 * 64 + byteAt rest 0 % 64, 2) else
      if byteAt rest 1 < 0x80 ∨ 0xBF < byteAt rest 1 then (RuneError, 1) else
      if x % 8 ≤ 3 then
        (a.val % 16 * 4096 + byteAt rest 0 % 64 * 64 + byteAt rest 1 % 64, 3) else
      if byteAt rest 2 < 0x80 ∨ 0xBF < byteAt rest 2 then (RuneError, 1) else
      (a.val % 8 * 262144 + byteAt rest 0 % 64 * 4096 + byteAt rest 1 % 64 * 64
        + byteAt rest 2 % 64, 4) := by
  simp only [DecodeRuneInString, byteAt, List.getD_cons_zero, List.getD_cons_succ, hx,
    List.length_cons, bits2, bits3, bits4]
  simp only [and_7, Nat.shiftRight_eq_div_pow, Nat.reducePow]
  rw [if_neg (by omega), if_neg (by omega)]

theorem decode_two (a b : Byte) (t : List Byte) (ha : 0xC2 ≤ a.val ∧ a.val ≤ 0xDF)
    (hb : 0x80 ≤ b.val ∧ b.val ≤ 0xBF) :
    DecodeRuneInString (a :: b :: t) = (a.val % 32 * 64 + b.val % 64, 2) := by
  rw [decode_unfold a _ _ (first_two ha) (by decide)]
  simp only [byteAt, List.getD_cons_zero, acceptRanges, List.length_cons]
  rw [if_neg (by omega), if_neg (by simp; omega), if_pos (by decide)]

theorem decode_three (a b c : Byte) (t : List Byte) (hab : lead3 a.val b.val)
    (hc : 0x80 ≤ c.val ∧ c.val ≤ 0xBF) :
    DecodeRuneInString (a :: b :: c :: t)
      = (a.val % 16 * 4096 + b.val % 64 * 64 + c.val % 64, 3) := by
  rcases hab with ⟨h, hb⟩ | ⟨h1, h2, hb⟩ | ⟨h, hb⟩ | ⟨h1, h2, hb⟩
  · rw [decode_unfold a _ _ (h ▸ first_e0) (by decide)]
    simp only [byteAt, List.getD_cons_zero, List.getD_cons_succ, acceptRanges, List.length_cons]
    rw [if_neg (by omega), if_neg (by simp; omega), if_neg (by decide), if_neg (by omega),
      if_pos (by decide)]
  · rw [decode_unfold a _ _ (first_three (Or.inl ⟨h1, h2⟩)) (by decide)]
    simp only [byteAt, List.getD_cons_zero, List.getD_cons_succ, acceptRanges, List.length_cons]
    rw [if_neg (by omega), if_neg (by simp; omega), if_neg (by decide), if_neg (by omega),
      if_pos (by decide)]
  · rw [decode_unfold a _ _ (h ▸ first_ed) (by decide)]
    simp only [byteAt, List.getD_cons_zero, List.getD_cons_succ, acceptRanges, List.length_cons]
    rw [if_neg (by omega), if_neg (by simp; omega), if_neg (by decide), if_neg (by omega),
      if_pos (by decide)]
  · rw [decode_unfold a _ _ (first_three (Or.inr ⟨h1, h2⟩)) (by decide)]
    simp only [byteAt, List.getD_cons_zero, List.getD_cons_succ, acceptRanges, List.length_cons]
    rw [if_neg (by omega), if_neg (by simp; omega), if_neg (by decide), if_neg (by omega),
      if_pos (by decide)]

theorem decode_four (a b c d : Byte) (t : List Byte) (hab : lead4 a.val b.val)
    (hc : 0x80 ≤ c.val ∧ c.val ≤ 0xBF) (hd : 0x80 ≤ d.val ∧ d.val ≤ 0xBF) :
    DecodeRuneInString (a :: b :: c :: d :: t)
      = (a.val % 8 * 262144 + b.val % 64 * 4096 + c.val % 64 * 64 + d.val % 64, 4) := by
  rcases hab with ⟨h, hb⟩ | ⟨h1, h2, hb⟩ | ⟨h, hb⟩
  · rw [decode_unfold a _ _ (h ▸ first_f0) (by decide)]
    simp only [byteAt, List.getD_cons_zero, List.getD_cons_succ, acceptRanges, List.length_cons]
    rw [if_neg (by omega), if_neg (by simp; omega), if_neg (by decide), if_neg (by omega),
      if_neg (by decide), if_neg (by omega)]
  · rw [decode_unfold a _ _ (first_four ⟨h1, h2⟩) (by decide)]
    simp only [byteAt, List.getD_cons_zero, List.getD_cons_succ, acceptRanges, List.length_cons]
    rw [if_neg (by omega), if_neg (by simp; omega), if_neg (by decide), if_neg (by omega),
      if_neg (by decide), if_neg (by omega)]
  · rw [decode_unfold a _ _ (h ▸ first_f4) (by decide)]
    simp only [byteAt, List.getD_cons_zero, List.getD_cons_succ, acceptRanges, List.length_cons]
    rw [if_neg (by omega), if_neg (by simp; omega), if_neg (by decide), if_neg (by omega),
      if_neg (by decide), if_neg (by omega)]

theorem validRune_iff (r : Nat) :
    ValidRune r = true ↔ r ≤ 0x10FFFF ∧ ¬ (0xD800 ≤ r ∧ r ≤ 0xDFFF) := by
  unfold ValidRune MaxRune
  split_ifs <;> simp <;> omega

theorem decode_xx (a : Byte) (rest : List Byte) (h : first a.val = 0xF1) :
    DecodeRuneInString (a :: rest) = (RuneError, 1) := by
  simp [DecodeRuneInString, byteAt, h]

theorem decode_bad0 (a : Byte) (rest : List Byte) (x : Nat) (hx : first a.val = x)
    (hlt : x < 0xF0) (h : rest.length + 1 < x % 8) :
    DecodeRuneInString (a :: rest) = (RuneError, 1) := by
  rw [decode_unfold a rest x hx hlt, if_pos h]

theorem decode_bad1 (a : Byte) (rest : List Byte) (x : Nat) (hx : first a.val = x)
    (hlt : x < 0xF0)
    (h : byteAt rest 0 < (acceptRanges (x / 16)).1 ∨ (acceptRanges (x / 16)).2 < byteAt rest 0) :
    DecodeRuneInString (a :: rest) = (RuneError, 1) := by
  rw [decode_unfold a rest x hx hlt, if_pos h, ite_self]

theorem decode_bad2 (a : Byte) (rest : List Byte) (x : Nat) (hx : first a.val = x)
    (hlt : x < 0xF0) (hsz : 2 < x % 8) (h : byteAt rest 1 < 0x80 ∨ 0xBF < byteAt rest 1) :
    DecodeRuneInString (a :: rest) = (RuneError, 1) := by
  rw [decode_unfold a rest x hx hlt, if_neg (show ¬ x % 8 ≤ 2 by omega), if_pos h, ite_self,
    ite_self]

theorem decode_bad3 (a : Byte) (rest : List Byte) (x : Nat) (hx : first a.val = x)
    (hlt : x < 0xF0) (hsz : 3 < x % 8) (h : byteAt rest 2 < 0x80 ∨ 0xBF < byteAt rest 2) :
    DecodeRuneInString (a :: rest) = (RuneError, 1) := by
  rw [decode_unfold a rest x hx hlt, if_neg (show ¬ x % 8 ≤ 2 by omega),
    if_neg (show ¬ x % 8 ≤ 3 by omega), if_pos h, ite_self, ite_self, ite_self]

theorem decode_wellFormed {s : List Byte} {r w : Nat} (h : WellFormed s r w) :
    DecodeRuneInString s = (r, w) := by
  rcases h with ⟨a, b, t, rfl, ha, hb, rfl, rfl⟩ | ⟨a, b, c, t, rfl, hab, hc, rfl, rfl⟩ |
    ⟨a, b, c, d, t, rfl, hab, hc, hd, rfl, rfl⟩
  · exact decode_two a b t ha hb
  · exact decode_three a b c t hab hc
  · exact decode_four a b c d t hab hc hd

/-- Every non-ASCII head either is malformed, decoded as `(RuneError, 1)`, or
is well formed and decoded to its rune and width. -/
theorem decode_classify (a : Byte) (rest : List Byte) (ha : 0x80 ≤ a.val) :
    DecodeRuneInString (a :: rest) = (RuneError, 1) ∨
    ∃ r w, WellFormed (a :: rest) r w ∧ DecodeRuneInString (a :: rest) = (r, w) := by
  have hlt := a.isLt
  by_cases h2 : 0xC2 ≤ a.val ∧ a.val ≤ 0xDF
  · -- two-byte lead
    have hf := first_two h2
    match rest with
    | [] => exact Or.inl (decode_bad0 a _ _ hf (by decide) (by decide))
    | b :: t =>
      by_cases hb : 0x80 ≤ b.val ∧ b.val ≤ 0xBF
      · exact Or.inr ⟨_, _, Or.inl ⟨a, b, t, rfl, h2, hb, rfl, rfl⟩, decode_two a b t h2 hb⟩
      · exact Or.inl (decode_bad1 a _ _ hf (by decide)
          (by simp only [byteAt, List.getD_cons_zero, acceptRanges]; simp; omega))
  by_cases h3 : 0xE0 ≤ a.val ∧ a.val ≤ 0xEF
  · -- three-byte lead
    obtain ⟨x, hf, hx⟩ : ∃ x, first a.val = x ∧
        ((x = 0x13 ∧ a.val = 0xE0) ∨ (x = 0x03 ∧ a.val ≠ 0xE0 ∧ a.val ≠ 0xED) ∨
          (x = 0x23 ∧ a.val = 0xED)) := by
      by_cases e0 : a.val = 0xE0
      · exact ⟨_, e0 ▸ first_e0, Or.inl ⟨rfl, e0⟩⟩
      by_cases ed : a.val = 0xED
      · exact ⟨_, ed ▸ first_ed, Or.inr (Or.inr ⟨rfl, ed⟩)⟩
      exact ⟨_, first_three (by omega), Or.inr (Or.inl ⟨rfl, e0, ed⟩)⟩
    have hx240 : x < 0xF0 := by omega
    have hsz : x % 8 = 3 := by omega
    match rest with
    | [] => exact Or.inl (decode_bad0 a _ _ hf hx240 (by simp; omega))
    | [b] => exact Or.inl (decode_bad0 a _ _ hf hx240 (by simp; omega))
    | b :: c :: t =>
      by_cases hab : lead3 a.val b.val
      · by_cases hc : 0x80 ≤ c.val ∧ c.val ≤ 0xBF
        · exact Or.inr ⟨_, _, Or.inr (Or.inl ⟨a, b, c, t, rfl, hab, hc, rfl, rfl⟩),
            decode_three a b c t hab hc⟩
        · exact Or.inl (decode_bad2 a _ _ hf hx240 (by omega)
            (by simp only [byteAt, List.getD_cons_zero, List.getD_cons_succ]; omega))
      · refine Or.inl (decode_bad1 a _ _ hf hx240 ?_)
        simp only [byteAt, List.getD_cons_zero]
        unfold lead3 at hab
        clear hf
        rcases hx with ⟨rfl, e1⟩ | ⟨rfl, e1, e2⟩ | ⟨rfl, e1⟩ <;> simp only [acceptRanges] <;>
          simp <;> omega
  by_cases h4 : 0xF0 ≤ a.val ∧ a.val ≤ 0xF4
  · obtain ⟨x, hf, hx⟩ : ∃ x, first a.val = x ∧
        ((x = 0x34 ∧ a.val = 0xF0) ∨ (x = 0x04 ∧ a.val ≠ 0xF0 ∧ a.val ≠ 0xF4) ∨
          (x = 0x44 ∧ a.val = 0xF4)) := by
      by_cases e0 : a.val = 0xF0
      · exact ⟨_, e0 ▸ first_f0, Or.inl ⟨rfl, e0⟩⟩
      by_cases ed : a.val = 0xF4
      · exact ⟨_, ed ▸ first_f4, Or.inr (Or.inr ⟨rfl, ed⟩)⟩
      exact ⟨_, first_four (by omega), Or.inr (Or.inl ⟨rfl, e0, ed⟩)⟩
    have hx240 : x < 0xF0 := by omega
    have hsz : x % 8 = 4 := by omega
    match rest with
    | [] => exact Or.inl (decode_bad0 a _ _ hf hx240 (by simp; omega))
    | [b] => exact Or.inl (decode_bad0 a _ _ hf hx240 (by simp; omega))
    | [b, c] => exact Or.inl (decode_bad0 a _ _ hf hx240 (by simp; omega))
    | b :: c :: d :: t =>
      by_cases hab : lead4 a.val b.val
      · by_cases hc : 0x80 ≤ c.val ∧ c.val ≤ 0xBF
        · by_cases hd : 0x80 ≤ d.val ∧ d.val ≤ 0xBF
          · exact Or.inr ⟨_, _, Or.inr (Or.inr ⟨a, b, c, d, t, rfl, hab, hc, hd, rfl, rfl⟩),
              decode_four a b c d t hab hc hd⟩
          · exact Or.inl (decode_bad3 a _ _ hf hx240 (by omega)
              (by simp only [byteAt, List.getD_cons_zero, List.getD_cons_succ]; omega))
        · exact Or.inl (decode_bad2 a _ _ hf hx240 (by omega)
            (by simp only [byteAt, List.getD_cons_zero, List.getD_cons_succ]; omega))
      · refine Or.inl (decode_bad1 a _ _ hf hx240 ?_)
        simp only [byteAt, List.getD_cons_zero]
        unfold lead4 at hab
        clear hf
        rcases hx with ⟨rfl, e1⟩ | ⟨rfl, e1, e2⟩ | ⟨rfl, e1⟩ <;> simp only [acceptRanges] <;>
          simp <;> omega
  · exact Or.inl (decode_xx a rest (by
      by_cases hl : a.val < 0xC2
      · exact first_lowbad ⟨ha, hl⟩
      · exact first_highbad (by omega)))

/-! ## The encoder, case by case -/

theorem bytes2_congr {a b a' b' : Nat} (ha : a % 256 = a' % 256) (hb : b % 256 = b' % 256) :
    [toByte a, toByte b] = [toByte a', toByte b'] := by
  rw [toByte_congr ha, toByte_congr hb]

theorem bytes3_congr {a b c a' b' c' : Nat} (ha : a % 256 = a' % 256)
    (hb : b % 256 = b' % 256) (hc : c % 256 = c' % 256) :
    [toByte a, toByte b, toByte c] = [toByte a', toByte b', toByte c'] := by
  rw [toByte_congr ha, toByte_congr hb, toByte_congr hc]

theorem bytes4_congr {a b c d a' b' c' d' : Nat} (ha : a % 256 = a' % 256)
    (hb : b % 256 = b' % 256) (hc : c % 256 = c' % 256) (hd : d % 256 = d' % 256) :
    [toByte a, toByte b, toByte c, toByte d] = [toByte a', toByte b', toByte c', toByte d'] := by
  rw [toByte_congr ha, toByte_congr hb, toByte_congr hc, toByte_congr hd]

theorem toByte_self (b : Byte) : toByte b.val = b :=
  Fin.ext (Nat.mod_eq_of_lt b.isLt)

theorem encode_one_eq {r : Nat} (h : r ≤ 0x7F) : EncodeRune r = [toByte r] := by
  unfold EncodeRune; rw [if_pos h]

theorem encode_two_eq {r : Nat} (h : 0x80 ≤ r ∧ r ≤ 0x7FF) :
    EncodeRune r = [toByte (192 + r / 64), toByte (128 + r % 64)] := by
  unfold EncodeRune
  rw [if_neg (by omega), if_pos (by omega)]
  simp only [Nat.shiftRight_eq_div_pow, and_63, Nat.reducePow]
  rw [or_add _ _ 6 (by decide) (by omega), or_add _ _ 6 (by decide) (by omega)]
  exact bytes2_congr (by omega) (by omega)

theorem encode3_eq {r : Nat} (h : r ≤ 0xFFFF) :
    encode3 r = [toByte (224 + r / 4096), toByte (128 + r / 64 % 64), toByte (128 + r % 64)] := by
  unfold encode3
  simp only [Nat.shiftRight_eq_div_pow, and_63, Nat.reducePow]
  rw [or_add _ _ 4 (by decide) (by omega), or_add _ _ 6 (by decide) (by omega),
    or_add _ _ 6 (by decide) (by omega)]
  exact bytes3_congr (by omega) (by omega) (by omega)

theorem encode_three_eq {r : Nat} (h : 0x800 ≤ r ∧ r ≤ 0xFFFF) (hs : ¬ (0xD800 ≤ r ∧ r ≤ 0xDFFF)) :
    EncodeRune r
      = [toByte (224 + r / 4096), toByte (128 + r / 64 % 64), toByte (128 + r % 64)] := by
  unfold EncodeRune
  rw [if_neg (by omega), if_neg (by omega), if_neg (by unfold MaxRune; omega), if_pos (by omega)]
  exact encode3_eq h.2

theorem encode_four_eq {r : Nat} (h : 0x10000 ≤ r ∧ r ≤ 0x10FFFF) :
    EncodeRune r = [toByte (240 + r / 262144), toByte (128 + r / 4096 % 64),
      toByte (128 + r / 64 % 64), toByte (128 + r % 64)] := by
  unfold EncodeRune
  rw [if_neg (by omega), if_neg (by omega), if_neg (by unfold MaxRune; omega),
    if_neg (by omega)]
  simp only [Nat.shiftRight_eq_div_pow, and_63, Nat.reducePow]
  rw [or_add _ _ 4 (by decide) (by omega), or_add _ _ 6 (by decide) (by omega),
    or_add _ _ 6 (by decide) (by omega), or_add _ _ 6 (by decide) (by omega)]
  exact bytes4_congr (by omega) (by omega) (by omega) (by omega)

theorem split2 (a b : Nat) (hb : b < 64) :
    (a * 64 + b) / 64 = a ∧ (a * 64 + b) % 64 = b := by omega

theorem split3 (a b c : Nat) (hb : b < 64) (hc : c < 64) :
    (a * 4096 + b * 64 + c) / 4096 = a ∧ (a * 4096 + b * 64 + c) / 64 % 64 = b ∧
      (a * 4096 + b * 64 + c) % 64 = c := by omega

theorem split4 (a b c d : Nat) (hb : b < 64) (hc : c < 64) (hd : d < 64) :
    (a * 262144 + b * 4096 + c * 64 + d) / 262144 = a ∧
      (a * 262144 + b * 4096 + c * 64 + d) / 4096 % 64 = b ∧
      (a * 262144 + b * 4096 + c * 64 + d) / 64 % 64 = c ∧
      (a * 262144 + b * 4096 + c * 64 + d) % 64 = d := by omega

/-- The arithmetic of a well-formed two-byte encoding. -/
theorem sound2_arith (a b : Nat) (ha : 0xC2 ≤ a ∧ a ≤ 0xDF) (hb : 0x80 ≤ b ∧ b ≤ 0xBF) :
    0x80 ≤ a % 32 * 64 + b % 64 ∧ a % 32 * 64 + b % 64 ≤ 0x7FF ∧
    192 + (a % 32 * 64 + b % 64) / 64 = a ∧ 128 + (a % 32 * 64 + b % 64) % 64 = b := by
  obtain ⟨x, rfl, hx⟩ : ∃ x, a = 192 + x ∧ x < 32 := ⟨a - 192, by omega, by omega⟩
  obtain ⟨y, rfl, hy⟩ : ∃ y, b = 128 + y ∧ y < 64 := ⟨b - 128, by omega, by omega⟩
  have e1 : (192 + x) % 32 = x := by omega
  have e2 : (128 + y) % 64 = y := by omega
  rw [e1, e2, (split2 x y hy).1, (split2 x y hy).2]
  omega

/-- The arithmetic of a well-formed three-byte encoding. -/
theorem sound3_arith (a b c : Nat) (hab : lead3 a b) (hc : 0x80 ≤ c ∧ c ≤ 0xBF) :
    0x800 ≤ a % 16 * 4096 + b % 64 * 64 + c % 64 ∧
    a % 16 * 4096 + b % 64 * 64 + c % 64 ≤ 0xFFFF ∧
    ¬ (0xD800 ≤ a % 16 * 4096 + b % 64 * 64 + c % 64 ∧
      a % 16 * 4096 + b % 64 * 64 + c % 64 ≤ 0xDFFF) ∧
    224 + (a % 16 * 4096 + b % 64 * 64 + c % 64) / 4096 = a ∧
    128 + (a % 16 * 4096 + b % 64 * 64 + c % 64) / 64 % 64 = b ∧
    128 + (a % 16 * 4096 + b % 64 * 64 + c % 64) % 64 = c := by
  unfold lead3 at hab
  obtain ⟨x, rfl, hx⟩ : ∃ x, a = 224 + x ∧ x < 16 := ⟨a - 224, by omega, by omega⟩
  obtain ⟨y, rfl, hy⟩ : ∃ y, b = 128 + y ∧ y < 64 := ⟨b - 128, by omega, by omega⟩
  obtain ⟨z, rfl, hz⟩ : ∃ z, c = 128 + z ∧ z < 64 := ⟨c - 128, by omega, by omega⟩
  have e1 : (224 + x) % 16 = x := by omega
  have e2 : (128 + y) % 64 = y := by omega
  have e3 : (128 + z) % 64 = z := by omega
  rw [e1, e2, e3, (split3 x y z hy hz).1, (split3 x y z hy hz).2.1, (split3 x y z hy hz).2.2]
  clear e1 e2 e3 hc
  omega

/-- The arithmetic of a well-formed four-byte encoding. -/
theorem sound4_arith (a b c d : Nat) (hab : lead4 a b) (hc : 0x80 ≤ c ∧ c ≤ 0xBF)
    (hd : 0x80 ≤ d ∧ d ≤ 0xBF) :
    0x10000 ≤ a % 8 * 262144 + b % 64 * 4096 + c % 64 * 64 + d % 64 ∧
    a % 8 * 262144 + b % 64 * 4096 + c % 64 * 64 + d % 64 ≤ 0x10FFFF ∧
    240 + (a % 8 * 262144 + b % 64 * 4096 + c % 64 * 64 + d % 64) / 262144 = a ∧
    128 + (a % 8 * 262144 + b % 64 * 4096 + c % 64 * 64 + d % 64) / 4096 % 64 = b ∧
    128 + (a % 8 * 262144 + b % 64 * 4096 + c % 64 * 64 + d % 64) / 64 % 64 = c ∧
    128 + (a % 8 * 262144 + b % 64 * 4096 + c % 64 * 64 + d % 64) % 64 = d := by
  unfold lead4 at hab
  obtain ⟨x, rfl, hx⟩ : ∃ x, a = 240 + x ∧ x < 8 := ⟨a - 240, by omega, by omega⟩
  obtain ⟨y, rfl, hy⟩ : ∃ y, b = 128 + y ∧ y < 64 := ⟨b - 128, by omega, by omega⟩
  obtain ⟨z, rfl, hz⟩ : ∃ z, c = 128 + z ∧ z < 64 := ⟨c - 128, by omega, by omega⟩
  obtain ⟨u, rfl, hu⟩ : ∃ u, d = 128 + u ∧ u < 64 := ⟨d - 128, by omega, by omega⟩
  have e1 : (240 + x) % 8 = x := by omega
  have e2 : (128 + y) % 64 = y := by omega
  have e3 : (128 + z) % 64 = z := by omega
  have e4 : (128 + u) % 64 = u := by omega
  rw [e1, e2, e3, e4, (split4 x y z u hy hz hu).1, (split4 x y z u hy hz hu).2.1,
    (split4 x y z u hy hz hu).2.2.1, (split4 x y z u hy hz hu).2.2.2]
  clear e1 e2 e3 e4 hc hd
  omega

/-- Soundness of the decoder: a well-formed head is the encoding of the rune
it is decoded to, and that rune is a valid code point above ASCII. -/
theorem wellFormed_sound {s : List Byte} {r w : Nat} (h : WellFormed s r w) :
    ValidRune r = true ∧ 0x80 ≤ r ∧ EncodeRune r = s.take w ∧ w ≤ s.length ∧ 2 ≤ w := by
  rw [validRune_iff]
  rcases h with ⟨a, b, t, rfl, ha, hb, rfl, rfl⟩ | ⟨a, b, c, t, rfl, hab, hc, rfl, rfl⟩ |
    ⟨a, b, c, d, t, rfl, hab, hc, hd, rfl, rfl⟩
  · obtain ⟨k1, k2, k3, k4⟩ := sound2_arith a.val b.val ha hb
    refine ⟨⟨by omega, by omega⟩, k1, ?_, by simp, by omega⟩
    rw [encode_two_eq ⟨k1, k2⟩, k3, k4, toByte_self, toByte_self]
    rfl
  · obtain ⟨k1, k2, k3, k4, k5, k6⟩ := sound3_arith a.val b.val c.val hab hc
    refine ⟨⟨by omega, k3⟩, by omega, ?_, by simp, by omega⟩
    rw [encode_three_eq ⟨k1, k2⟩ k3, k4, k5, k6, toByte_self, toByte_self, toByte_self]
    rfl
  · obtain ⟨k1, k2, k3, k4, k5, k6⟩ := sound4_arith a.val b.val c.val d.val hab hc hd
    refine ⟨⟨k2, by omega⟩, by omega, ?_, by simp, by omega⟩
    rw [encode_four_eq ⟨k1, k2⟩, k3, k4, k5, k6, toByte_self, toByte_self, toByte_self,
      toByte_self]
    rfl

/-- The arithmetic of the two-byte encoding of `r`. -/
theorem complete2_arith (r : Nat) (h : 0x80 ≤ r ∧ r ≤ 0x7FF) :
    (0xC2 ≤ (192 + r / 64) % 256 ∧ (192 + r / 64) % 256 ≤ 0xDF) ∧
    (0x80 ≤ (128 + r % 64) % 256 ∧ (128 + r % 64) % 256 ≤ 0xBF) ∧
    r = (192 + r / 64) % 256 % 32 * 64 + (128 + r % 64) % 256 % 64 := by
  obtain ⟨x, y, hy, rfl⟩ : ∃ x y, y < 64 ∧ r = x * 64 + y :=
    ⟨r / 64, r % 64, Nat.mod_lt _ (by decide), by omega⟩
  rw [(split2 x y hy).1, (split2 x y hy).2]
  have hx : 2 ≤ x ∧ x < 32 := by omega
  clear h
  omega

/-- The arithmetic of the three-byte encoding of `r`. -/
theorem complete3_arith (r : Nat) (h : 0x800 ≤ r ∧ r ≤ 0xFFFF)
    (hs : ¬ (0xD800 ≤ r ∧ r ≤ 0xDFFF)) :
    lead3 ((224 + r / 4096) % 256) ((128 + r / 64 % 64) % 256) ∧
    (0x80 ≤ (128 + r % 64) % 256 ∧ (128 + r % 64) % 256 ≤ 0xBF) ∧
    r = (224 + r / 4096) % 256 % 16 * 4096 + (128 + r / 64 % 64) % 256 % 64 * 64
      + (128 + r % 64) % 256 % 64 := by
  obtain ⟨x, y, z, hy, hz, rfl⟩ : ∃ x y z, y < 64 ∧ z < 64 ∧ r = x * 4096 + y * 64 + z :=
    ⟨r / 4096, r / 64 % 64, r % 64, Nat.mod_lt _ (by decide), Nat.mod_lt _ (by decide),
      by omega⟩
  rw [(split3 x y z hy hz).1, (split3 x y z hy hz).2.1, (split3 x y z hy hz).2.2]
  have hx : x < 16 := by omega
  have e1 : (224 + x) % 256 = 224 + x := by omega
  have e2 : (128 + y) % 256 = 128 + y := by omega
  have e3 : (128 + z) % 256 = 128 + z := by omega
  have e4 : (224 + x) % 16 = x := by omega
  have e5 : (128 + y) % 64 = y := by omega
  have e6 : (128 + z) % 64 = z := by omega
  rw [e1, e2, e3, e4, e5, e6]
  unfold lead3
  clear e1 e2 e3 e4 e5 e6
  omega

/-- The arithmetic of the four-byte encoding of `r`. -/
theorem complete4_arith (r : Nat) (h : 0x10000 ≤ r ∧ r ≤ 0x10FFFF) :
    lead4 ((240 + r / 262144) % 256) ((128 + r / 4096 % 64) % 256) ∧
    (0x80 ≤ (128 + r / 64 % 64) % 256 ∧ (128 + r / 64 % 64) % 256 ≤ 0xBF) ∧
    (0x80 ≤ (128 + r % 64) % 256 ∧ (128 + r % 64) % 256 ≤ 0xBF) ∧
    r = (240 + r / 262144) % 256 % 8 * 262144 + (128 + r / 4096 % 64) % 256 % 64 * 4096
      + (128 + r / 64 % 64) % 256 % 64 * 64 + (128 + r % 64) % 256 % 64 := by
  obtain ⟨x, y, z, u, hy, hz, hu, rfl⟩ :
      ∃ x y z u, y < 64 ∧ z < 64 ∧ u < 64 ∧ r = x * 262144 + y * 4096 + z * 64 + u :=
    ⟨r / 262144, r / 4096 % 64, r / 64 % 64, r % 64, Nat.mod_lt _ (by decide),
      Nat.mod_lt _ (by decide), Nat.mod_lt _ (by decide), by omega⟩
  rw [(split4 x y z u hy hz hu).1, (split4 x y z u hy hz hu).2.1,
    (split4 x y z u hy hz hu).2.2.1, (split4 x y z u hy hz hu).2.2.2]
  have hx : x < 8 := by omega
  have e1 : (240 + x) % 256 = 240 + x := by omega
  have e2 : (128 + y) % 256 = 128 + y := by omega
  have e3 : (128 + z) % 256 = 128 + z := by omega
  have e4 : (128 + u) % 256 = 128 + u := by omega
  have e5 : (240 + x) % 8 = x := by omega
  have e6 : (128 + y) % 64 = y := by omega
  have e7 : (128 + z) % 64 = z := by omega
  have e8 : (128 + u) % 64 = u := by omega
  rw [e1, e2, e3, e4, e5, e6, e7, e8]
  unfold lead4
  clear e1 e2 e3 e4 e5 e6 e7 e8
  omega

/-- Completeness of the decoder: the encoding of a valid code point above
ASCII, followed by anything, is a well-formed head for that code point. -/
theorem encode_wellFormed {r : Nat} (hv : ValidRune r = true) (hr : 0x80 ≤ r)
    (rest : List Byte) :
    WellFormed (EncodeRune r ++ rest) r (EncodeRune r).length := by
  rw [validRune_iff] at hv
  by_cases h2 : r ≤ 0x7FF
  · obtain ⟨k1, k2, k3⟩ := complete2_arith r ⟨hr, h2⟩
    rw [encode_two_eq ⟨hr, h2⟩]
    exact Or.inl ⟨_, _, rest, rfl, k1, k2, k3, rfl⟩
  by_cases h3 : r ≤ 0xFFFF
  · obtain ⟨k1, k2, k3⟩ := complete3_arith r ⟨by omega, h3⟩ hv.2
    rw [encode_three_eq ⟨by omega, h3⟩ hv.2]
    exact Or.inr (Or.inl ⟨_, _, _, rest, rfl, k1, k2, k3, rfl⟩)
  · obtain ⟨k1, k2, k3, k4⟩ := complete4_arith r ⟨by omega, hv.1⟩
    rw [encode_four_eq ⟨by omega, hv.1⟩]
    exact Or.inr (Or.inr ⟨_, _, _, _, rest, rfl, k1, k2, k3, k4, rfl⟩)

/-! ## The loop -/

theorem decodeHead_ascii (a : Byte) (rest : List Byte) (h : a.val < 0x80) :
    decodeHead (a :: rest) = (a.val, 1) := by
  simp only [decodeHead, byteAt, List.getD_cons_zero, RuneSelf]
  rw [if_neg (by omega)]

theorem decodeHead_high (a : Byte) (rest : List Byte) (h : 0x80 ≤ a.val) :
    decodeHead (a :: rest) = DecodeRuneInString (a :: rest) := by
  simp only [decodeHead, byteAt, List.getD_cons_zero, RuneSelf]
  rw [if_pos (by omega)]

/-- What one iteration decodes: an ASCII byte, a malformed unit, or a
well-formed multi-byte encoding. -/
theorem decodeHead_cases (a : Byte) (rest : List Byte) :
    (a.val < 0x80 ∧ decodeHead (a :: rest) = (a.val, 1)) ∨
    (0x80 ≤ a.val ∧ decodeHead (a :: rest) = (RuneError, 1)) ∨
    (0x80 ≤ a.val ∧ ∃ r w, WellFormed (a :: rest) r w ∧ decodeHead (a :: rest) = (r, w)) := by
  by_cases h : a.val < 0x80
  · exact Or.inl ⟨h, decodeHead_ascii a rest h⟩
  · have h8 : 0x80 ≤ a.val := by omega
    rw [decodeHead_high a rest h8]
    rcases decode_classify a rest h8 with hb | hw
    · exact Or.inr (Or.inl ⟨h8, hb⟩)
    · exact Or.inr (Or.inr ⟨h8, hw⟩)

/-- Every iteration consumes at least one byte and never more than are left,
so the slice `s[width:]` is in range. -/
theorem decodeHead_width (a : Byte) (rest : List Byte) :
    1 ≤ (decodeHead (a :: rest)).2 ∧ (decodeHead (a :: rest)).2 ≤ (a :: rest).length := by
  rcases decodeHead_cases a rest with ⟨_, h⟩ | ⟨_, h⟩ | ⟨_, r, w, hw, h⟩
  · rw [h]; simp
  · rw [h]; simp
  · rw [h]
    have := wellFormed_sound hw
    exact ⟨by omega, this.2.2.2.1⟩

theorem appendQuotedLoop_nil (tab : Nat → Bool) (fuel : Nat) (buf : List Byte) :
    appendQuotedLoop tab fuel buf [] = buf := by
  cases fuel <;> rfl

/-- The fuel of the loop is immaterial as soon as it covers the input. -/
theorem appendQuotedLoop_fuel (tab : Nat → Bool) :
    ∀ (f1 f2 : Nat) (buf s : List Byte), s.length ≤ f1 → s.length ≤ f2 →
      appendQuotedLoop tab f1 buf s = appendQuotedLoop tab f2 buf s := by
  intro f1
  induction f1 with
  | zero =>
    intro f2 buf s h1 _
    have hs : s = [] := List.length_eq_zero.mp (Nat.le_zero.mp h1)
    subst hs
    rw [appendQuotedLoop_nil, appendQuotedLoop_nil]
  | succ n ih =>
    intro f2 buf s h1 h2
    cases s with
    | nil => rw [appendQuotedLoop_nil, appendQuotedLoop_nil]
    | cons a rest =>
      cases f2 with
      | zero => simp at h2
      | succ m =>
        have hw := decodeHead_width a rest
        simp only [appendQuotedLoop]
        apply ih
        · simp only [List.length_drop, List.length_cons] at *; omega
        · simp only [List.length_drop, List.length_cons] at *; omega

theorem appendQuoted_nil (tab : Nat → Bool) (buf : List Byte) :
    appendQuoted tab buf [] = buf := rfl

/-- One iteration of the loop of `appendQuoted`. -/
theorem appendQuoted_cons (tab : Nat → Bool) (buf : List Byte) (a : Byte) (rest : List Byte) :
    appendQuoted tab buf (a :: rest) =
      appendQuoted tab
        (buf ++ quoteStep tab a (decodeHead (a :: rest)).1 (decodeHead (a :: rest)).2)
        ((a :: rest).drop (decodeHead (a :: rest)).2) := by
  have hw := decodeHead_width a rest
  simp only [appendQuoted, List.length_cons, appendQuotedLoop]
  apply appendQuotedLoop_fuel
  · simp only [List.length_drop, List.length_cons] at *; omega
  · exact Nat.le_refl _

/-- One iteration, with the decoded rune and width named. -/
theorem appendQuoted_step (tab : Nat → Bool) (buf : List Byte) (a : Byte) (rest : List Byte)
    {r w : Nat} (h : decodeHead (a :: rest) = (r, w)) :
    appendQuoted tab buf (a :: rest) =
      appendQuoted tab (buf ++ quoteStep tab a r w) ((a :: rest).drop w) := by
  rw [appendQuoted_cons, h]

/-- Induction along the iterations of the loop. -/
theorem appendQuoted_induction (tab : Nat → Bool) (P : List Byte → List Byte → Prop)
    (hnil : ∀ buf, P buf buf)
    (hstep : ∀ buf a rest out,
      P (buf ++ quoteStep tab a (decodeHead (a :: rest)).1 (decodeHead (a :: rest)).2) out →
      P buf out) :
    ∀ (n : Nat) (buf s : List Byte), s.length ≤ n → P buf (appendQuoted tab buf s) := by
  intro n
  induction n with
  | zero =>
    intro buf s h
    have hs : s = [] := List.length_eq_zero.mp (Nat.le_zero.mp h)
    subst hs
    exact hnil buf
  | succ n ih =>
    intro buf s h
    cases s with
    | nil => exact hnil buf
    | cons a rest =>
      rw [appendQuoted_cons]
      have hw := decodeHead_width a rest
      apply hstep buf a rest
      apply ih
      simp only [List.length_drop, List.length_cons] at *; omega

/-- The buffer is only ever appended to. -/
theorem appendQuoted_buf (tab : Nat → Bool) (buf s : List Byte) :
    appendQuoted tab buf s = buf ++ appendQuoted tab [] s := by
  suffices h : ∀ (n : Nat) (s buf : List Byte), s.length ≤ n →
      appendQuoted tab buf s = buf ++ appendQuoted tab [] s from h s.length s buf (Nat.le_refl _)
  intro n
  induction n with
  | zero =>
    intro s buf h
    have hs : s = [] := List.length_eq_zero.mp (Nat.le_zero.mp h)
    subst hs
    simp [appendQuoted_nil]
  | succ n ih =>
    intro s buf h
    cases s with
    | nil => simp [appendQuoted_nil]
    | cons a rest =>
      have hw := decodeHead_width a rest
      have hl : ((a :: rest).drop (decodeHead (a :: rest)).2).length ≤ n := by
        simp only [List.length_drop, List.length_cons] at *; omega
      rw [appendQuoted_cons, ih _ _ hl, appendQuoted_cons tab [] a rest, ih _ ([] ++ _) hl]
      simp only [List.nil_append, List.append_assoc]

/-! ## The escape grammar -/

theorem lit_x : lit "\\x" = [0x5C, 0x78] := by decide

theorem lit_u : lit "\\u" = [0x5C, 0x75] := by decide

theorem lit_U : lit "\\U" = [0x5C, 0x55] := by decide

theorem lowerhex_isLowerHex : ∀ i : Fin lowerhex.length, isLowerHex (lowerhex.get i) = true := by
  decide

theorem hexLo_isLowerHex (x : Nat) : isLowerHex (hexLo x) = true :=
  lowerhex_isLowerHex _

theorem hexHi_isLowerHex (b : Byte) : isLowerHex (hexHi b) = true :=
  lowerhex_isLowerHex _

theorem hexLoop_isLowerHex (r : Nat) (shifts : List Nat) :
    ∀ d ∈ hexLoop r shifts, isLowerHex d = true := by
  intro d hd
  simp only [hexLoop, List.mem_map] at hd
  obtain ⟨s, _, rfl⟩ := hd
  exact hexLo_isLowerHex _

theorem simple_token (tab : Nat → Bool) (c : Byte) (h : c ∈ simpleEscapes) :
    IsToken tab [0x5C, c] := Or.inr (Or.inl ⟨c, h, rfl⟩)

theorem hex2_token (tab : Nat → Bool) (a : Byte) :
    IsToken tab (lit "\\x" ++ [hexHi a] ++ [hexLo a.val]) := by
  refine Or.inr (Or.inr (Or.inl ⟨[hexHi a, hexLo a.val], rfl, ?_, by rw [lit_x]; rfl⟩))
  intro d hd
  simp only [List.mem_cons, List.mem_singleton, List.not_mem_nil, or_false] at hd
  rcases hd with rfl | rfl
  · exact hexHi_isLowerHex a
  · exact hexLo_isLowerHex _

/-- Whatever valid rune an iteration decoded, the bytes it appends are one
token of the grammar. -/
theorem quoteStep_token (tab : Nat → Bool) (a : Byte) (r w : Nat) (hv : ValidRune r = true) :
    IsToken tab (quoteStep tab a r w) := by
  unfold quoteStep
  by_cases h1 : w = 1 ∧ r = RuneError
  · rw [if_pos h1]; exact hex2_token tab a
  rw [if_neg h1]
  by_cases h2 : r = 0x22 ∨ r = 0x5C
  · rw [if_pos h2]
    refine simple_token tab _ ?_
    rcases h2 with rfl | rfl <;> decide
  rw [if_neg h2]
  by_cases h3 : IsPrint tab r = true
  · rw [if_pos h3]
    exact Or.inl ⟨r, hv, h3, fun h => h2 (Or.inl h), fun h => h2 (Or.inr h), rfl⟩
  rw [if_neg h3]
  by_cases h4 : r = 0x07
  · rw [if_pos h4]; exact simple_token tab _ (by decide)
  rw [if_neg h4]
  by_cases h5 : r = 0x08
  · rw [if_pos h5]; exact simple_token tab _ (by decide)
  rw [if_neg h5]
  by_cases h6 : r = 0x0C
  · rw [if_pos h6]; exact simple_token tab _ (by decide)
  rw [if_neg h6]
  by_cases h7 : r = 0x0A
  · rw [if_pos h7]; exact simple_token tab _ (by decide)
  rw [if_neg h7]
  by_cases h8 : r = 0x0D
  · rw [if_pos h8]; exact simple_token tab _ (by decide)
  rw [if_neg h8]
  by_cases h9 : r = 0x09
  · rw [if_pos h9]; exact simple_token tab _ (by decide)
  rw [if_neg h9]
  by_cases h10 : r = 0x0B
  · rw [if_pos h10]; exact simple_token tab _ (by decide)
  rw [if_neg h10]
  by_cases h11 : r < 0x20
  · rw [if_pos h11]; exact hex2_token tab a
  rw [if_neg h11]
  by_cases h12 : r > MaxRune
  · rw [if_pos h12]
    exact Or.inr (Or.inr (Or.inr (Or.inl ⟨hexLoop 0xFFFD [12, 8, 4, 0], rfl,
      hexLoop_isLowerHex _ _, by rw [lit_u]; rfl⟩)))
  rw [if_neg h12]
  by_cases h13 : r < 0x10000
  · rw [if_pos h13]
    exact Or.inr (Or.inr (Or.inr (Or.inl ⟨hexLoop r [12, 8, 4, 0], rfl,
      hexLoop_isLowerHex _ _, by rw [lit_u]; rfl⟩)))
  rw [if_neg h13]
  exact Or.inr (Or.inr (Or.inr (Or.inr ⟨hexLoop r [28, 24, 20, 16, 12, 8, 4, 0], rfl,
    hexLoop_isLowerHex _ _, by rw [lit_U]; rfl⟩)))

theorem validRune_RuneError : ValidRune RuneError = true := by decide

/-- Every rune an iteration decodes is a valid code point. -/
theorem decodeHead_valid (a : Byte) (rest : List Byte) :
    ValidRune (decodeHead (a :: rest)).1 = true := by
  rcases decodeHead_cases a rest with ⟨ha, h⟩ | ⟨_, h⟩ | ⟨_, r, w, hw, h⟩
  · rw [h, validRune_iff]; simp only; omega
  · rw [h]; exact validRune_RuneError
  · rw [h]; exact (wellFormed_sound hw).1

/-- The bytes of the encoding of a valid code point above ASCII are all
at least `0x80`. -/
theorem encode_high {r : Nat} (hv : ValidRune r = true) (hr : 0x80 ≤ r) :
    ∀ b ∈ EncodeRune r, 0x80 ≤ b.val := by
  have hw := encode_wellFormed hv hr []
  rw [List.append_nil] at hw
  rcases hw with ⟨a, b, t, hs, ha, hb, _, hl⟩ | ⟨a, b, c, t, hs, hab, hc, _, hl⟩ |
    ⟨a, b, c, d, t, hs, hab, hc, hd, _, hl⟩
  · rw [hs] at hl ⊢
    have ht : t = [] := by simpa using hl
    subst ht
    intro x hx
    simp only [List.mem_cons, List.mem_singleton, List.not_mem_nil, or_false] at hx
    rcases hx with rfl | rfl <;> omega
  · rw [hs] at hl ⊢
    have ht : t = [] := by simpa using hl
    subst ht
    unfold lead3 at hab
    intro x hx
    simp only [List.mem_cons, List.mem_singleton, List.not_mem_nil, or_false] at hx
    rcases hx with rfl | rfl | rfl <;> omega
  · rw [hs] at hl ⊢
    have ht : t = [] := by simpa using hl
    subst ht
    unfold lead4 at hab
    intro x hx
    simp only [List.mem_cons, List.mem_singleton, List.not_mem_nil, or_false] at hx
    rcases hx with rfl | rfl | rfl | rfl <;> omega

/-- A token holds no raw control byte, and unless it starts with a backslash
it holds neither a double quote nor a backslash. -/
theorem token_clean (tab : Nat → Bool) (t : List Byte) (h : IsToken tab t) :
    (∀ b ∈ t, 0x20 ≤ b.val ∧ b.val ≠ 0x7F) ∧
    (t.head? = some 0x5C ∨ ∀ b ∈ t, b.val ≠ 0x22 ∧ b.val ≠ 0x5C) := by
  have hex : ∀ d : Byte, isLowerHex d = true → 0x20 ≤ d.val ∧ d.val ≠ 0x7F := by
    intro d hd
    simp only [isLowerHex, Bool.or_eq_true, Bool.and_eq_true, decide_eq_true_eq] at hd
    omega
  rcases h with ⟨r, hv, hp, hq, hb, rfl⟩ | ⟨c, hc, rfl⟩ | ⟨ds, _, hds, rfl⟩ | ⟨ds, _, hds, rfl⟩ |
    ⟨ds, _, hds, rfl⟩
  · by_cases hr : r < 0x80
    · rw [encode_one_eq (by omega)]
      have hpr : 0x20 ≤ r ∧ r ≤ 0x7E := by
        unfold IsPrint at hp
        rw [if_pos (by omega)] at hp
        by_contra hcon
        rw [if_neg hcon, if_neg (by omega)] at hp
        exact Bool.false_ne_true hp
      have hval : (toByte r).val = r := by rw [toByte_val]; omega
      refine ⟨?_, Or.inr ?_⟩ <;> intro b hb' <;>
        simp only [List.mem_singleton] at hb' <;> subst hb' <;> rw [hval] <;> omega
    · have hh := encode_high hv (by omega : 0x80 ≤ r)
      refine ⟨fun b hb' => ?_, Or.inr fun b hb' => ?_⟩ <;> have := hh b hb' <;> omega
  · refine ⟨?_, Or.inl rfl⟩
    have : ∀ c : Byte, c ∈ simpleEscapes → 0x20 ≤ c.val ∧ c.val ≠ 0x7F := by
      intro c hc
      simp only [simpleEscapes, List.mem_cons, List.mem_singleton, List.not_mem_nil,
        or_false] at hc
      rcases hc with rfl | rfl | rfl | rfl | rfl | rfl | rfl | rfl | rfl <;> decide
    intro b hb
    simp only [List.mem_cons, List.mem_singleton, List.not_mem_nil, or_false] at hb
    rcases hb with rfl | rfl
    · decide
    · exact this _ hc
  · refine ⟨?_, Or.inl rfl⟩
    intro b hb
    simp only [List.mem_cons] at hb
    rcases hb with rfl | rfl | hb
    · decide
    · decide
    · exact hex b (hds b hb)
  · refine ⟨?_, Or.inl rfl⟩
    intro b hb
    simp only [List.mem_cons] at hb
    rcases hb with rfl | rfl | hb
    · decide
    · decide
    · exact hex b (hds b hb)
  · refine ⟨?_, Or.inl rfl⟩
    intro b hb
    simp only [List.mem_cons] at hb
    rcases hb with rfl | rfl | hb
    · decide
    · decide
    · exact hex b (hds b hb)

/-- The output of the escaper is a sequence of tokens appended to the buffer. -/
theorem appendQuoted_tokens (tab : Nat → Bool) (buf s : List Byte) :
    ∃ toks : List (List Byte),
      appendQuoted tab buf s = buf ++ toks.flatten ∧ ∀ t ∈ toks, IsToken tab t := by
  have key := appendQuoted_induction tab
    (fun buf out => ∃ toks : List (List Byte), out = buf ++ toks.flatten ∧
      ∀ t ∈ toks, IsToken tab t)
    (fun buf => ⟨[], by simp, by simp⟩)
    (fun buf a rest out ⟨toks, ho, ht⟩ =>
      ⟨quoteStep tab a (decodeHead (a :: rest)).1 (decodeHead (a :: rest)).2 :: toks,
        by rw [ho]; simp,
        by
          intro t htm
          rcases List.mem_cons.mp htm with rfl | htm
          · exact quoteStep_token tab a _ _ (decodeHead_valid a rest)
          · exact ht t htm⟩)
  exact key s.length buf s (Nat.le_refl _)

/-! ## ASCII bytes are always decoded on their own -/

theorem wellFormed_append {s : List Byte} {r w : Nat} (h : WellFormed s r w) (u : List Byte) :
    WellFormed (s ++ u) r w := by
  rcases h with ⟨a, b, t, rfl, ha, hb, hr, hw⟩ | ⟨a, b, c, t, rfl, hab, hc, hr, hw⟩ |
    ⟨a, b, c, d, t, rfl, hab, hc, hd, hr, hw⟩
  · exact Or.inl ⟨a, b, t ++ u, rfl, ha, hb, hr, hw⟩
  · exact Or.inr (Or.inl ⟨a, b, c, t ++ u, rfl, hab, hc, hr, hw⟩)
  · exact Or.inr (Or.inr ⟨a, b, c, d, t ++ u, rfl, hab, hc, hd, hr, hw⟩)

theorem lead3_high {a b : Nat} (h : lead3 a b) : 0x80 ≤ b := by
  unfold lead3 at h; omega

theorem lead4_high {a b : Nat} (h : lead4 a b) : 0x80 ≤ b := by
  unfold lead4 at h; omega

/-- A well-formed head does not reach into an ASCII byte. -/
theorem wellFormed_of_append {a : Byte} {rest : List Byte} {q : Byte} {t : List Byte}
    {r w : Nat} (hq : q.val < 0x80) (h : WellFormed (a :: (rest ++ q :: t)) r w) :
    WellFormed (a :: rest) r w := by
  rcases h with ⟨a', b, t', hs, ha, hb, hr, hw⟩ | ⟨a', b, c, t', hs, hab, hc, hr, hw⟩ |
    ⟨a', b, c, d, t', hs, hab, hc, hd, hr, hw⟩
  · match rest, hs with
    | [], hs =>
      simp only [List.nil_append, List.cons.injEq] at hs
      obtain ⟨_, rfl, _⟩ := hs
      omega
    | x :: rest', hs =>
      simp only [List.cons_append, List.cons.injEq] at hs
      obtain ⟨rfl, rfl, _⟩ := hs
      exact Or.inl ⟨a, x, rest', rfl, ha, hb, hr, hw⟩
  · have hb := lead3_high hab
    match rest, hs with
    | [], hs =>
      simp only [List.nil_append, List.cons.injEq] at hs
      obtain ⟨_, rfl, _⟩ := hs
      omega
    | [x], hs =>
      simp only [List.cons_append, List.nil_append, List.cons.injEq] at hs
      obtain ⟨_, _, rfl, _⟩ := hs
      omega
    | x :: y :: rest', hs =>
      simp only [List.cons_append, List.cons.injEq] at hs
      obtain ⟨rfl, rfl, rfl, _⟩ := hs
      exact Or.inr (Or.inl ⟨a, x, y, rest', rfl, hab, hc, hr, hw⟩)
  · have hb := lead4_high hab
    match rest, hs with
    | [], hs =>
      simp only [List.nil_append, List.cons.injEq] at hs
      obtain ⟨_, rfl, _⟩ := hs
      omega
    | [x], hs =>
      simp only [List.cons_append, List.nil_append, List.cons.injEq] at hs
      obtain ⟨_, _, rfl, _⟩ := hs
      omega
    | [x, y], hs =>
      simp only [List.cons_append, List.nil_append, List.cons.injEq] at hs
      obtain ⟨_, _, _, rfl, _⟩ := hs
      omega
    | x :: y :: z :: rest', hs =>
      simp only [List.cons_append, List.cons.injEq] at hs
      obtain ⟨rfl, rfl, rfl, rfl, _⟩ := hs
      exact Or.inr (Or.inr ⟨a, x, y, z, rest', rfl, hab, hc, hd, hr, hw⟩)

theorem decodeHead_wellFormed {a : Byte} {rest : List Byte} {r w : Nat}
    (h : WellFormed (a :: rest) r w) : decodeHead (a :: rest) = (r, w) := by
  have h8 : 0x80 ≤ a.val := by
    rcases h with ⟨a', b, t', hs, ha, _⟩ | ⟨a', b, c, t', hs, hab, _⟩ |
      ⟨a', b, c, d, t', hs, hab, _⟩
    · simp only [List.cons.injEq] at hs; obtain ⟨rfl, _⟩ := hs; omega
    · simp only [List.cons.injEq] at hs; obtain ⟨rfl, _⟩ := hs; unfold lead3 at hab; omega
    · simp only [List.cons.injEq] at hs; obtain ⟨rfl, _⟩ := hs; unfold lead4 at hab; omega
  rw [decodeHead_high a rest h8]
  exact decode_wellFormed h

/-- What is decoded at a position does not depend on what follows the next
ASCII byte. -/
theorem decodeHead_append_ascii (a : Byte) (rest : List Byte) (q : Byte) (t : List Byte)
    (hq : q.val < 0x80) :
    decodeHead (a :: (rest ++ q :: t)) = decodeHead (a :: rest) := by
  rcases decodeHead_cases a rest with ⟨ha, h⟩ | ⟨ha, h⟩ | ⟨ha, r, w, hw, h⟩
  · rw [h, decodeHead_ascii a _ ha]
  · rcases decodeHead_cases a (rest ++ q :: t) with ⟨ha', h'⟩ | ⟨_, h'⟩ | ⟨_, r, w, hw, h'⟩
    · omega
    · rw [h, h']
    · have hw' := wellFormed_of_append hq hw
      have h2 := decodeHead_wellFormed hw'
      have := (wellFormed_sound hw').2.2.2.2
      rw [h] at h2
      simp only [Prod.mk.injEq] at h2
      omega
  · rw [h]
    exact decodeHead_wellFormed (wellFormed_append hw (q :: t))

/-- An ASCII byte of the input is escaped on its own: the output is the
escape of what precedes it, the bytes of its own iteration, and the escape of
what follows. -/
theorem appendQuoted_ascii_split (tab : Nat → Bool) (q : Byte) (hq : q.val < 0x80)
    (s2 : List Byte) :
    ∀ (n : Nat) (s1 buf : List Byte), s1.length ≤ n →
      appendQuoted tab buf (s1 ++ q :: s2) =
        appendQuoted tab buf s1 ++ quoteStep tab q q.val 1 ++ appendQuoted tab [] s2 := by
  intro n
  induction n with
  | zero =>
    intro s1 buf h
    have hs : s1 = [] := List.length_eq_zero.mp (Nat.le_zero.mp h)
    subst hs
    rw [List.nil_append, appendQuoted_step tab buf q s2 (decodeHead_ascii q s2 hq),
      appendQuoted_nil, List.drop_one, List.tail_cons, appendQuoted_buf]
  | succ n ih =>
    intro s1 buf h
    cases s1 with
    | nil =>
      rw [List.nil_append, appendQuoted_step tab buf q s2 (decodeHead_ascii q s2 hq),
        appendQuoted_nil, List.drop_one, List.tail_cons, appendQuoted_buf]
    | cons a rest =>
      have hw := decodeHead_width a rest
      have hd := decodeHead_append_ascii a rest q s2 hq
      rw [List.cons_append, appendQuoted_cons tab buf a (rest ++ q :: s2), hd,
        appendQuoted_cons tab buf a rest, ← List.cons_append,
        List.drop_append_of_le_length hw.2]
      apply ih
      simp only [List.length_drop, List.length_cons] at *; omega

/-! ## Hexadecimal digits, as the specification words them -/

theorem lowerhex_get : ∀ i : Fin lowerhex.length, lowerhex.get i = hexDigit i.val := by
  decide

theorem hexLo_eq (x : Nat) : hexLo x = hexDigit (x % 16) := by
  unfold hexLo
  rw [lowerhex_get]
  simp only [and_15]

theorem hexHi_eq (b : Byte) : hexHi b = hexDigit (b.val / 16) := by
  unfold hexHi
  rw [lowerhex_get]
  simp only [Nat.shiftRight_eq_div_pow, Nat.reducePow]

theorem hexLoop4_eq (r : Nat) : hexLoop r [12, 8, 4, 0] = hexDigits 4 r := by
  simp only [hexLoop, List.map_cons, List.map_nil, hexLo_eq, hexDigits, List.nil_append,
    List.cons_append, Nat.shiftRight_eq_div_pow, Nat.reducePow, Nat.div_div_eq_div_mul,
    Nat.reduceMul, Nat.div_one]

theorem hexLoop8_eq (r : Nat) :
    hexLoop r [28, 24, 20, 16, 12, 8, 4, 0] = hexDigits 8 r := by
  simp only [hexLoop, List.map_cons, List.map_nil, hexLo_eq, hexDigits, List.nil_append,
    List.cons_append, Nat.shiftRight_eq_div_pow, Nat.reducePow, Nat.div_div_eq_div_mul,
    Nat.reduceMul, Nat.div_one]

theorem hexDigits_length (n r : Nat) : (hexDigits n r).length = n := by
  induction n generalizing r with
  | zero => rfl
  | succ n ih => simp [hexDigits, ih]

theorem hexDigit_isLowerHex (d : Nat) (h : d < 16) : isLowerHex (hexDigit d) = true := by
  interval_cases d <;> decide

theorem hexDigitVal_hexDigit (d : Nat) (h : d < 16) : hexDigitVal (hexDigit d) = d := by
  interval_cases d <;> decide

theorem hexDigits_isLowerHex (n r : Nat) : ∀ d ∈ hexDigits n r, isLowerHex d = true := by
  induction n generalizing r with
  | zero => intro d hd; simp [hexDigits] at hd
  | succ n ih =>
    intro d hd
    simp only [hexDigits, List.mem_append, List.mem_singleton] at hd
    rcases hd with hd | rfl
    · exact ih _ d hd
    · exact hexDigit_isLowerHex _ (Nat.mod_lt _ (by decide))

theorem hexValue_append (ds : List Byte) (d : Byte) :
    hexValue (ds ++ [d]) = hexValue ds * 16 + hexDigitVal d := by
  simp [hexValue, List.foldl_append]

/-- The digits written denote the number, when it fits. -/
theorem hexValue_hexDigits (n r : Nat) (h : r < 16 ^ n) : hexValue (hexDigits n r) = r := by
  induction n generalizing r with
  | zero =>
    have : r = 0 := by simpa using h
    subst this; rfl
  | succ n ih =>
    have h2 : r / 16 < 16 ^ n := by
      rw [Nat.div_lt_iff_lt_mul (by decide)]
      rw [pow_succ] at h
      exact h
    rw [hexDigits, hexValue_append, ih _ h2, hexDigitVal_hexDigit _ (Nat.mod_lt _ (by decide))]
    omega

/-! ## Independence from the Unicode tables on Latin-1 -/

theorem IsPrint_latin1 (tab tab' : Nat → Bool) {r : Nat} (h : r ≤ 0xFF) :
    IsPrint tab r = IsPrint tab' r := by
  unfold IsPrint
  rw [if_pos h, if_pos h]

theorem quoteStep_latin1 (tab tab' : Nat → Bool) (a : Byte) {r : Nat} (w : Nat) (h : r ≤ 0xFF) :
    quoteStep tab a r w = quoteStep tab' a r w := by
  unfold quoteStep
  rw [IsPrint_latin1 tab tab' h]

/-- On ASCII input the escaper does not consult the Unicode tables. -/
theorem appendQuoted_ascii_tab (tab tab' : Nat → Bool) :
    ∀ (s buf : List Byte), (∀ b ∈ s, b.val < 0x80) →
      appendQuoted tab buf s = appendQuoted tab' buf s := by
  intro s
  induction s with
  | nil => intro buf _; rfl
  | cons a rest ih =>
    intro buf h
    have ha : a.val < 0x80 := h a (List.mem_cons_self _ _)
    have hd := decodeHead_ascii a rest ha
    rw [appendQuoted_step tab buf a rest hd, appendQuoted_step tab' buf a rest hd,
      quoteStep_latin1 tab tab' a 1 (by omega : a.val ≤ 0xFF), List.drop_one, List.tail_cons]
    exact ih _ (fun b hb => h b (List.mem_cons_of_mem _ hb))

theorem quoteStep_quote (tab : Nat → Bool) : quoteStep tab 0x22 0x22 1 = [0x5C, 0x22] := by
  rw [quoteStep_latin1 tab (fun _ => false) _ _ (by decide)]; decide

theorem quoteStep_backslash (tab : Nat → Bool) : quoteStep tab 0x5C 0x5C 1 = [0x5C, 0x5C] := by
  rw [quoteStep_latin1 tab (fun _ => false) _ _ (by decide)]; decide

set_option maxRecDepth 100000 in
theorem quoteStep_control_table : ∀ b : Byte, b.val < 0x20 →
    quoteStep (fun _ => false) b b.val 1 = controlEscape b := by
  decide

/-- The code's escape of a control byte is the specification's. -/
theorem quoteStep_control (tab : Nat → Bool) (b : Byte) (hb : b.val < 0x20) :
    quoteStep tab b b.val 1 = controlEscape b := by
  rw [quoteStep_latin1 tab (fun _ => false) _ _ (by omega)]
  exact quoteStep_control_table b hb

/-- The encoding of a valid code point is decoded back to it, with the
length of the encoding as width. -/
theorem decodeHead_encode {r : Nat} (hv : ValidRune r = true) (rest : List Byte) :
    ∃ a t, EncodeRune r ++ rest = a :: t ∧
      decodeHead (a :: t) = (r, (EncodeRune r).length) ∧
      ((EncodeRune r).length = 1 → r < 0x80) := by
  by_cases hr : r < 0x80
  · rw [encode_one_eq (by omega)]
    refine ⟨toByte r, rest, rfl, ?_, fun _ => hr⟩
    have hval : (toByte r).val = r := by rw [toByte_val]; omega
    rw [decodeHead_ascii _ _ (by omega), hval]; rfl
  · have hw := encode_wellFormed hv (by omega : 0x80 ≤ r) rest
    have hl := (wellFormed_sound hw).2.2.2.2
    match hs : EncodeRune r ++ rest, hw with
    | [], hw =>
      rcases hw with ⟨_, _, _, h, _⟩ | ⟨_, _, _, _, h, _⟩ | ⟨_, _, _, _, _, h, _⟩ <;>
        exact absurd h (List.noConfusion)
    | a :: t, hw =>
      exact ⟨a, t, rfl, decodeHead_wellFormed hw, fun h1 => by omega⟩

/-- One iteration on the encoding of a valid code point. -/
theorem appendQuoted_encode (tab : Nat → Bool) {r : Nat} (hv : ValidRune r = true)
    (buf rest : List Byte) :
    ∃ a, appendQuoted tab buf (EncodeRune r ++ rest) =
      appendQuoted tab (buf ++ quoteStep tab a r (EncodeRune r).length) rest ∧
      ((EncodeRune r).length = 1 → r < 0x80) := by
  obtain ⟨a, t, hs, hd, h1⟩ := decodeHead_encode hv rest
  refine ⟨a, ?_, h1⟩
  rw [hs, appendQuoted_step tab buf a t hd, ← hs, List.drop_left]

theorem plainRune_iff (tab : Nat → Bool) (r : Nat) :
    PlainRune tab r = true ↔
      ValidRune r = true ∧ IsPrint tab r = true ∧ r ≠ 0x22 ∧ r ≠ 0x5C := by
  simp [PlainRune, and_assoc]

/-- The iteration on a printable character other than the quote and the
backslash appends its encoding. -/
theorem quoteStep_plain (tab : Nat → Bool) (a : Byte) {r w : Nat}
    (h : PlainRune tab r = true) (hw : w = 1 → r < 0x80) :
    quoteStep tab a r w = EncodeRune r := by
  rw [plainRune_iff] at h
  unfold quoteStep
  rw [if_neg (by unfold RuneError; omega), if_neg (by omega), if_pos h.2.1]

/-- The escaper is the identity on the encodings of printable characters
other than the quote and the backslash. -/
theorem appendQuoted_encodeString (tab : Nat → Bool) :
    ∀ (rs : List Nat) (buf : List Byte), (∀ r ∈ rs, PlainRune tab r = true) →
      appendQuoted tab buf (encodeString rs) = buf ++ encodeString rs := by
  intro rs
  induction rs with
  | nil => intro buf _; simp [encodeString, appendQuoted_nil]
  | cons r rs ih =>
    intro buf h
    have hr := h r (List.mem_cons_self _ _)
    obtain ⟨a, ha, h1⟩ := appendQuoted_encode tab ((plainRune_iff tab r).mp hr).1 buf
      (encodeString rs)
    rw [encodeString, ha, quoteStep_plain tab a hr h1,
      ih _ (fun x hx => h x (List.mem_cons_of_mem _ hx)), List.append_assoc]

/-- A head that starts a valid encoding is not decoded as a malformed unit. -/
theorem startsValid_decodeHead {a : Byte} {rest : List Byte} (h : StartsValid (a :: rest)) :
    decodeHead (a :: rest) ≠ (RuneError, 1) := by
  obtain ⟨r, hv, t, ht⟩ := h
  obtain ⟨a', t', hs, hd, h1⟩ := decodeHead_encode hv t
  rw [ht] at hs
  rw [hs, hd]
  intro heq
  simp only [Prod.mk.injEq] at heq
  have := h1 heq.2
  rw [heq.1] at this
  exact absurd this (by decide)

/-- A head that is not decoded as a malformed unit starts a valid encoding. -/
theorem decodeHead_startsValid {a : Byte} {rest : List Byte}
    (h : decodeHead (a :: rest) ≠ (RuneError, 1)) : StartsValid (a :: rest) := by
  rcases decodeHead_cases a rest with ⟨ha, _⟩ | ⟨_, hb⟩ | ⟨_, r, w, hw, _⟩
  · refine ⟨a.val, by rw [validRune_iff]; omega, rest, ?_⟩
    rw [encode_one_eq (by omega), toByte_self]; rfl
  · exact absurd hb h
  · have hs := wellFormed_sound hw
    exact ⟨r, hs.1, by rw [hs.2.2.1]; exact List.take_prefix _ _⟩

theorem quoteStep_malformed (tab : Nat → Bool) (a : Byte) :
    quoteStep tab a RuneError 1 = [0x5C, 0x78, hexDigit (a.val / 16), hexDigit (a.val % 16)] := by
  unfold quoteStep
  rw [if_pos ⟨rfl, rfl⟩, lit_x, hexHi_eq, hexLo_eq]; rfl

/-- The iteration on a valid, non-printable code point from `0x20` on. -/
theorem quoteStep_unicode (tab : Nat → Bool) (a : Byte) {r w : Nat} (hv : ValidRune r = true)
    (hr : 0x20 ≤ r) (hp : IsPrint tab r = false) (hw : w = 1 → r < 0x80) :
    quoteStep tab a r w = unicodeEscape r := by
  rw [validRune_iff] at hv
  have h22 : r ≠ 0x22 := by
    rintro rfl
    rw [IsPrint_latin1 tab (fun _ => false) (by decide)] at hp
    exact absurd hp (by decide)
  have h5c : r ≠ 0x5C := by
    rintro rfl
    rw [IsPrint_latin1 tab (fun _ => false) (by decide)] at hp
    exact absurd hp (by decide)
  unfold quoteStep unicodeEscape
  rw [if_neg (by unfold RuneError; omega), if_neg (by omega), if_neg (by rw [hp]; decide),
    if_neg (by omega), if_neg (by omega), if_neg (by omega), if_neg (by omega),
    if_neg (by omega), if_neg (by omega), if_neg (by omega), if_neg (by omega),
    if_neg (by unfold MaxRune; omega), lit_u, lit_U, hexLoop4_eq, hexLoop8_eq]

/-! ## The escaper: claims -/

/-- C1 (escaper totality): for every input byte string, valid UTF-8 or not,
the output of `appendQuoted` on an empty buffer holds no raw control byte (none
below `0x20`, no `0x7F`) and splits into tokens of the escape grammar, each the
encoding of a printable character other than the quote and the backslash, or a
backslash followed by one of the quote, the backslash, `a b f n r t v`, `x` and
two hex digits, `u` and four, `U` and eight; so a quote or a backslash occurs
only inside a token that starts with a backslash. -/
theorem appendQuoted_output_grammar (tab : Nat → Bool) (s : List Byte) :
    (∀ b ∈ appendQuoted tab [] s, 0x20 ≤ b.val ∧ b.val ≠ 0x7F) ∧
    ∃ toks : List (List Byte), appendQuoted tab [] s = toks.flatten ∧
      (∀ t ∈ toks, IsToken tab t) ∧
      (∀ t ∈ toks, t.head? = some 0x5C ∨ ∀ b ∈ t, b.val ≠ 0x22 ∧ b.val ≠ 0x5C) := by
  obtain ⟨toks, ho, ht⟩ := appendQuoted_tokens tab [] s
  rw [List.nil_append] at ho
  refine ⟨?_, toks, ho, ht, fun t htm => (token_clean tab t (ht t htm)).2⟩
  intro b hb
  rw [ho, List.mem_flatten] at hb
  obtain ⟨t, htm, hbt⟩ := hb
  exact (token_clean tab t (ht t htm)).1 b hbt

set_option maxRecDepth 10000 in
theorem hello_world_ascii : ∀ b ∈ lit "hello \"world\"", b.val < 0x80 := by
  decide

/-- C2: every double quote and every backslash of the input is emitted as a
backslash followed by that same character, between the escapes of what
precedes and of what follows it; the printable characters around it are
unchanged; and `hello "world"` is escaped to `hello \"world\"`. -/
theorem appendQuoted_quote_backslash (tab : Nat → Bool) (s1 s2 : List Byte)
    (rs1 rs2 : List Nat) (h1 : ∀ r ∈ rs1, PlainRune tab r = true)
    (h2 : ∀ r ∈ rs2, PlainRune tab r = true) :
    appendQuoted tab [] (s1 ++ 0x22 :: s2)
      = appendQuoted tab [] s1 ++ [0x5C, 0x22] ++ appendQuoted tab [] s2 ∧
    appendQuoted tab [] (s1 ++ 0x5C :: s2)
      = appendQuoted tab [] s1 ++ [0x5C, 0x5C] ++ appendQuoted tab [] s2 ∧
    appendQuoted tab [] (encodeString rs1 ++ 0x22 :: encodeString rs2)
      = encodeString rs1 ++ [0x5C, 0x22] ++ encodeString rs2 ∧
    appendQuoted tab [] (encodeString rs1 ++ 0x5C :: encodeString rs2)
      = encodeString rs1 ++ [0x5C, 0x5C] ++ encodeString rs2 ∧
    appendQuoted tab [] (lit "hello \"world\"") = lit "hello \\\"world\\\"" := by
  have hq := fun s1 s2 =>
    appendQuoted_ascii_split tab 0x22 (by decide) s2 (List.length s1) s1 [] (Nat.le_refl _)
  have hb := fun s1 s2 =>
    appendQuoted_ascii_split tab 0x5C (by decide) s2 (List.length s1) s1 [] (Nat.le_refl _)
  simp only [quoteStep_quote, quoteStep_backslash] at hq hb
  refine ⟨hq s1 s2, hb s1 s2, ?_, ?_, ?_⟩
  · rw [hq, appendQuoted_encodeString tab rs1 [] h1, appendQuoted_encodeString tab rs2 [] h2]
    rfl
  · rw [hb, appendQuoted_encodeString tab rs1 [] h1, appendQuoted_encodeString tab rs2 [] h2]
    rfl
  · rw [appendQuoted_ascii_tab tab (fun _ => false) _ _ hello_world_ascii]
    decide

/-- Witness of C2: the quote between `hello ` and `world`. -/
theorem appendQuoted_quote_backslash_witness :
    appendQuoted (fun _ => true) [] (lit "hello " ++ 0x22 :: lit "world")
      = lit "hello \\\"world" ∧
    appendQuoted (fun _ => true) [] (lit "hello \"world\"") = lit "hello \\\"world\\\"" := by
  have h := appendQuoted_quote_backslash (fun _ => true) [] []
    [0x68, 0x65, 0x6C, 0x6C, 0x6F, 0x20] [0x77, 0x6F, 0x72, 0x6C, 0x64] (by decide) (by decide)
  exact ⟨h.2.2.1.trans (by decide), h.2.2.2.2⟩

/-- C3: a control byte `b < 0x20` of the input is emitted as `\a \b \t \n \v
\f \r` when it is bell, backspace, tab, newline, vertical tab, form feed or
carriage return, and as `\x` followed by the two lowercase hex digits of `b`
otherwise, between the escapes of what precedes and of what follows it. -/
theorem appendQuoted_control (tab : Nat → Bool) (b : Byte) (hb : b.val < 0x20)
    (s1 s2 : List Byte) :
    appendQuoted tab [] (s1 ++ b :: s2)
      = appendQuoted tab [] s1 ++ controlEscape b ++ appendQuoted tab [] s2 := by
  rw [appendQuoted_ascii_split tab b (by omega) s2 s1.length s1 [] (Nat.le_refl _),
    quoteStep_control tab b hb]

/-- Witness of C3: a tab is escaped to `\t` and the byte `0x01` to `\x01`. -/
theorem appendQuoted_control_witness :
    appendQuoted (fun _ => true) [] [0x09] = lit "\\t" ∧
    appendQuoted (fun _ => true) [] [0x01] = lit "\\x01" :=
  ⟨(appendQuoted_control (fun _ => true) 0x09 (by decide) [] []).trans (by decide),
   (appendQuoted_control (fun _ => true) 0x01 (by decide) [] []).trans (by decide)⟩

/-- C4: at a position where the remaining bytes `a :: rest` do not start a
valid UTF-8 encoding, the escaper appends `\x` and the two lowercase hex digits
of the byte `a`, consumes that one byte and goes on with `rest`. -/
theorem appendQuoted_malformed (tab : Nat → Bool) (a : Byte) (rest : List Byte)
    (h : ¬ StartsValid (a :: rest)) (buf : List Byte) :
    appendQuoted tab buf (a :: rest)
      = appendQuoted tab
          (buf ++ [0x5C, 0x78, hexDigit (a.val / 16), hexDigit (a.val % 16)]) rest := by
  have hd : decodeHead (a :: rest) = (RuneError, 1) := by
    by_contra hne
    exact h (decodeHead_startsValid hne)
  rw [appendQuoted_step tab buf a rest hd, quoteStep_malformed, List.drop_one, List.tail_cons]

/-- Witness of C4: the byte `0xFF` before `A` is escaped to `\xff`. -/
theorem appendQuoted_malformed_witness :
    ¬ StartsValid [0xFF, 0x41] ∧ appendQuoted (fun _ => true) [] [0xFF, 0x41] = lit "\\xffA" :=
  have hn : ¬ StartsValid [0xFF, 0x41] := fun hs => startsValid_decodeHead hs (by decide)
  ⟨hn, (appendQuoted_malformed (fun _ => true) 0xFF [0x41] hn []).trans (by decide)⟩

/-- C5: a validly encoded, non-printable code point `r ≥ 0x20` is emitted as
`\u` and exactly four hex digits when `r < 0x10000`, as `\U` and exactly eight
otherwise; the digits are lowercase, zero-padded, and denote `r`. -/
theorem appendQuoted_nonprintable (tab : Nat → Bool) (r : Nat) (hv : ValidRune r = true)
    (hr : 0x20 ≤ r) (hp : IsPrint tab r = false) (buf rest : List Byte) :
    ∃ ds : List Byte,
      appendQuoted tab buf (EncodeRune r ++ rest)
        = appendQuoted tab
            (buf ++ ((if r < 0x10000 then [0x5C, 0x75] else [0x5C, 0x55]) ++ ds)) rest ∧
      ds.length = (if r < 0x10000 then 4 else 8) ∧
      (∀ d ∈ ds, isLowerHex d = true) ∧ hexValue ds = r := by
  obtain ⟨a, ha, h1⟩ := appendQuoted_encode tab hv buf rest
  rw [quoteStep_unicode tab a hv hr hp h1] at ha
  have hmax : r ≤ 0x10FFFF := ((validRune_iff r).mp hv).1
  by_cases hlt : r < 0x10000
  · refine ⟨hexDigits 4 r, ?_, ?_, hexDigits_isLowerHex 4 r,
      hexValue_hexDigits 4 r (by norm_num; omega)⟩
    · rw [ha, unicodeEscape, if_pos hlt, if_pos hlt]
    · rw [hexDigits_length, if_pos hlt]
  · refine ⟨hexDigits 8 r, ?_, ?_, hexDigits_isLowerHex 8 r,
      hexValue_hexDigits 8 r (by norm_num; omega)⟩
    · rw [ha, unicodeEscape, if_neg hlt, if_neg hlt]
    · rw [hexDigits_length, if_neg hlt]

/-- Witness of C5: DEL is escaped to `\u007f`, and U+1F600, when the tables
hold it non-printable, to `\U0001f600`. -/
theorem appendQuoted_nonprintable_witness :
    (∃ ds : List Byte,
      appendQuoted (fun _ => true) [] (EncodeRune 0x7F ++ [])
        = appendQuoted (fun _ => true)
            ([] ++ ((if 0x7F < 0x10000 then [0x5C, 0x75] else [0x5C, 0x55]) ++ ds)) [] ∧
      ds.length = (if 0x7F < 0x10000 then 4 else 8) ∧
      (∀ d ∈ ds, isLowerHex d = true) ∧ hexValue ds = 0x7F) ∧
    appendQuoted (fun _ => true) [] [0x7F] = lit "\\u007f" ∧
    appendQuoted (fun _ => false) [] [0xF0, 0x9F, 0x98, 0x80] = lit "\\U0001f600" :=
  ⟨appendQuoted_nonprintable (fun _ => true) 0x7F (by decide) (by decide) (by decide) [] [],
   by decide, by decide⟩

/-- C6: the escaper is the identity on a string that consists only of validly
encoded printable characters and holds neither a double quote nor a backslash:
`appendQuoted(buf, s) = buf ++ s`. -/
theorem appendQuoted_plain (tab : Nat → Bool) (rs : List Nat)
    (h : ∀ r ∈ rs, PlainRune tab r = true) (buf : List Byte) :
    appendQuoted tab buf (encodeString rs) = buf ++ encodeString rs :=
  appendQuoted_encodeString tab rs buf h

/-- Witness of C6: `hé` after `x`, with U+00E9 in two bytes. -/
theorem appendQuoted_plain_witness :
    appendQuoted (fun _ => true) [0x78] (encodeString [0x68, 0xE9])
      = [0x78] ++ encodeString [0x68, 0xE9] ∧
    encodeString [0x68, 0xE9] = [0x68, 0xC3, 0xA9] :=
  ⟨appendQuoted_plain (fun _ => true) [0x68, 0xE9] (by decide) [0x78], by decide⟩

/-! ## The log line: claims -/

/-- The layout of the Common-Log-Format prefix. -/
theorem buildCommonLogLine_eq (tab : Nat → Bool) (req : Request) (url : URL) (ts : Time)
    (status size : Int) :
    buildCommonLogLine tab req url ts status size =
      clientHost req ++ lit " - " ++ username url ++ lit " [" ++ ts.common ++ lit "] \""
        ++ req.Method ++ lit " "
        ++ appendQuoted tab [] (annotateBackend req.ctx (requestTarget req url))
        ++ lit " " ++ req.Proto ++ lit "\" " ++ Itoa status ++ lit " " ++ Itoa size := by
  simp only [buildCommonLogLine]
  rw [appendQuoted_buf]
  simp only [List.nil_append, List.append_assoc]

/-- C7: the Common-Log-Format prefix is `host - identity [timestamp] "method
escaped-target protocol" status size`: the identity is the URL's user name when
present and non-empty and `-` otherwise, the host is the host part of the
remote address when it splits as host:port and the raw remote address
otherwise, and method, protocol, status and size are emitted verbatim, the
last two in decimal. -/
theorem buildCommonLogLine_layout (tab : Nat → Bool) (req : Request) (url : URL) (ts : Time)
    (status size : Int) :
    buildCommonLogLine tab req url ts status size =
      clientHost req ++ lit " - " ++ username url ++ lit " [" ++ ts.common ++ lit "] \""
        ++ req.Method ++ lit " "
        ++ appendQuoted tab [] (annotateBackend req.ctx (requestTarget req url))
        ++ lit " " ++ req.Proto ++ lit "\" " ++ Itoa status ++ lit " " ++ Itoa size ∧
    (url.User = none → username url = lit "-") ∧
    (∀ u, url.User = some u → u.username = [] → username url = lit "-") ∧
    (∀ u, url.User = some u → u.username ≠ [] → username url = u.username) ∧
    (∀ host port, SplitHostPort req.RemoteAddr = some (host, port) → clientHost req = host) ∧
    (SplitHostPort req.RemoteAddr = none → clientHost req = req.RemoteAddr) := by
  refine ⟨buildCommonLogLine_eq tab req url ts status size, ?_, ?_, ?_, ?_, ?_⟩
  · intro h; simp [username, h]
  · intro u h hu; simp [username, h, hu]
  · intro u h hu; simp [username, h, hu]
  · intro host port h; simp [clientHost, h]
  · intro h; simp [clientHost, h]

/-- Witness of C7: client `1.2.3.4:5555`, no user name, `GET /foo HTTP/1.1`,
status 200, size 512. -/
theorem buildCommonLogLine_layout_witness :
    buildCommonLogLine (fun _ => true) (getRequest (lit "/foo") ⟨none, none⟩)
        (pathURL (lit "/foo")) exampleTime 200 512
      = lit "1.2.3.4 - - [10/Oct/2000:13:55:36 -0700] \"GET /foo HTTP/1.1\" 200 512" :=
  (buildCommonLogLine_layout (fun _ => true) (getRequest (lit "/foo") ⟨none, none⟩)
    (pathURL (lit "/foo")) exampleTime 200 512).1.trans (by decide)

/-- C8, counterexample: an HTTP/2 `CONNECT` request whose host field is empty
is not logged with its host field as target: the target is the request URI
reconstructed from the parsed URL, here `/`. -/
theorem requestTarget_connect_empty_host :
    (connectRequest []).ProtoMajor = 2 ∧ (connectRequest []).Method = lit "CONNECT" ∧
    requestTarget (connectRequest []) (pathURL (lit "/")) = lit "/" ∧
    requestTarget (connectRequest []) (pathURL (lit "/")) ≠ (connectRequest []).Host ∧
    buildCommonLogLine (fun _ => true) (connectRequest []) (pathURL (lit "/")) exampleTime 200 0
      = lit "1.2.3.4 - - [10/Oct/2000:13:55:36 -0700] \"CONNECT / HTTP/2.0\" 200 0" := by
  decide

/-- C8, amended: for a request with protocol major version 2 and method
`CONNECT` the resolved target is the host field when that is non-empty,
whatever the request URI, and the request URI reconstructed from the parsed
URL when the host field is empty; for every other request it is the raw
request URI when that is non-empty and the reconstructed one when it is
empty. -/
theorem requestTarget_resolution (req : Request) (url : URL) :
    (req.ProtoMajor = 2 ∧ req.Method = lit "CONNECT" → req.Host ≠ [] →
      requestTarget req url = req.Host) ∧
    (req.ProtoMajor = 2 ∧ req.Method = lit "CONNECT" → req.Host = [] →
      requestTarget req url = url.requestURI) ∧
    (¬ (req.ProtoMajor = 2 ∧ req.Method = lit "CONNECT") → req.RequestURI ≠ [] →
      requestTarget req url = req.RequestURI) ∧
    (¬ (req.ProtoMajor = 2 ∧ req.Method = lit "CONNECT") → req.RequestURI = [] →
      requestTarget req url = url.requestURI) := by
  refine ⟨?_, ?_, ?_, ?_⟩ <;> intro hc hu <;> simp only [requestTarget]
  · rw [if_pos hc, if_neg hu]
  · rw [if_pos hc, if_pos hu]
  · rw [if_neg hc, if_neg hu]
  · rw [if_neg hc, if_pos hu]

/-- Witness of C8: protocol major 2, method `CONNECT`, host `example.com:443`
give the target `example.com:443`, here with the URI `/ignored`. -/
theorem requestTarget_resolution_witness :
    requestTarget (connectRequest (lit "example.com:443")) (pathURL (lit "/"))
      = lit "example.com:443" :=
  (requestTarget_resolution (connectRequest (lit "example.com:443")) (pathURL (lit "/"))).1
    ⟨rfl, rfl⟩ (by decide)

/-- C9: when the context holds a resolved backend `b` the target field of the
line is the escape of `u ++ " --> " ++ b`, `u` being the resolved target, so
the backend is escaped together with the target; when no backend is recorded
the field is the escape of `u` alone. -/
theorem buildCommonLogLine_backend (tab : Nat → Bool) (req : Request) (url : URL) (ts : Time)
    (status size : Int) :
    (∀ b, req.ctx.targetVal = some b →
      buildCommonLogLine tab req url ts status size =
        clientHost req ++ lit " - " ++ username url ++ lit " [" ++ ts.common ++ lit "] \""
          ++ req.Method ++ lit " "
          ++ appendQuoted tab [] (requestTarget req url ++ lit " --> " ++ b)
          ++ lit " " ++ req.Proto ++ lit "\" " ++ Itoa status ++ lit " " ++ Itoa size) ∧
    (req.ctx.targetVal = none →
      buildCommonLogLine tab req url ts status size =
        clientHost req ++ lit " - " ++ username url ++ lit " [" ++ ts.common ++ lit "] \""
          ++ req.Method ++ lit " "
          ++ appendQuoted tab [] (requestTarget req url)
          ++ lit " " ++ req.Proto ++ lit "\" " ++ Itoa status ++ lit " " ++ Itoa size) := by
  constructor
  · intro b hb
    rw [buildCommonLogLine_eq, annotateBackend, hb]
  · intro hb
    rw [buildCommonLogLine_eq, annotateBackend, hb]

/-- Witness of C9: the URI `/api/x` with the backend `http://10.0.0.5:8080`
gives the target field `/api/x --> http://10.0.0.5:8080`. -/
theorem buildCommonLogLine_backend_witness :
    buildCommonLogLine (fun _ => true)
        (getRequest (lit "/api/x") ⟨none, some (lit "http://10.0.0.5:8080")⟩)
        (pathURL (lit "/api/x")) exampleTime 200 512
      = lit ("1.2.3.4 - - [10/Oct/2000:13:55:36 -0700] " ++
          "\"GET /api/x --> http://10.0.0.5:8080 HTTP/1.1\" 200 512") :=
  ((buildCommonLogLine_backend (fun _ => true)
    (getRequest (lit "/api/x") ⟨none, some (lit "http://10.0.0.5:8080")⟩)
    (pathURL (lit "/api/x")) exampleTime 200 512).1 _ rfl).trans (by decide)

/-- C10: for a request that is not ignored, the line is written with
`" err: " ++ m` right before the trailing newline exactly when the context
holds a recorded, non-nil terminal error, `m` being its message; with no error
recorded, context attached or not, the newline follows the trace/upstream
suffix directly. -/
theorem WriteCustomLog_error (tab : Nat → Bool) (defaultIgnores : Ignores) (heap : Heap)
    (elapsed : List Byte) (params : LogFormatterParams)
    (hni : IsIgnore defaultIgnores params.URL.Path = false) :
    (∀ e, recordedError heap params.Request.ctx = some e →
      WriteCustomLog tab defaultIgnores heap elapsed params =
        [lineBeforeError tab elapsed params ++ lit " err: " ++ e.msg ++ [0x0A]]) ∧
    (recordedError heap params.Request.ctx = none →
      WriteCustomLog tab defaultIgnores heap elapsed params =
        [lineBeforeError tab elapsed params ++ [0x0A]]) ∧
    (recordedError heap params.Request.ctx = none ↔
      params.Request.ctx.errVal = none ∨
      ∃ p, params.Request.ctx.errVal = some p ∧ (heap p).Err = none) := by
  refine ⟨?_, ?_, ?_⟩
  · intro e he
    unfold recordedError at he
    simp only [WriteCustomLog, hni, annotateError]
    cases hv : params.Request.ctx.errVal with
    | none => rw [hv] at he; exact absurd he (by simp)
    | some p =>
      rw [hv] at he
      have he' : (heap p).Err = some e := he
      simp [he', CtxErr.Error]
  · intro he
    unfold recordedError at he
    simp only [WriteCustomLog, hni, annotateError]
    cases hv : params.Request.ctx.errVal with
    | none => simp
    | some p =>
      rw [hv] at he
      have he' : (heap p).Err = none := he
      simp [he']
  · simp only [recordedError]
    cases hv : params.Request.ctx.errVal with
    | none => simp
    | some p => simp

/-- Witness of C10: after the error `boom` is recorded the line ends with
` err: boom` and the newline. -/
theorem WriteCustomLog_error_witness :
    WriteCustomLog (fun _ => true) ⟨[]⟩ (fun _ => ⟨some ⟨lit "boom"⟩⟩) (lit "1.5ms")
        ⟨getRequest (lit "/foo") ⟨some 0, none⟩, pathURL (lit "/foo"), exampleTime, 200, 512⟩
      = [lit ("1.2.3.4 - - [10/Oct/2000:13:55:36 -0700] \"GET /foo HTTP/1.1\" 200 512" ++
          " XFF() host(example.com) upstream(1.5ms) err: boom\n")] :=
  ((WriteCustomLog_error (fun _ => true) ⟨[]⟩ (fun _ => ⟨some ⟨lit "boom"⟩⟩) (lit "1.5ms")
      ⟨getRequest (lit "/foo") ⟨some 0, none⟩, pathURL (lit "/foo"), exampleTime, 200, 512⟩
      rfl).1 ⟨lit "boom"⟩ rfl).trans (by decide)

/-! ## The suffix of the line and the entry point: claims -/

/-- The error annotation appends the error segment of the recorded error. -/
theorem annotateError_eq (heap : Heap) (ctx : Context) (buf : List Byte) :
    annotateError heap ctx buf = buf ++ errSegment (recordedError heap ctx) := by
  unfold annotateError recordedError
  cases hv : ctx.errVal with
  | none => simp [errSegment]
  | some p =>
    cases he : (heap p).Err with
    | none => simp [errSegment, he]
    | some e => simp [errSegment, he, CtxErr.Error]

/-- The trace header is appended when its value is not empty. -/
theorem trace_eq (req : Request) (buf : List Byte) :
    (if req.HeaderGet (lit "X-Cloud-Trace-Context") ≠ [] then
        buf ++ req.HeaderGet (lit "X-Cloud-Trace-Context") else buf)
      = buf ++ traceSegment req := by
  unfold Request.HeaderGet traceSegment
  cases hh : req.Header (lit "X-Cloud-Trace-Context") with
  | nil => simp
  | cons v vs =>
    by_cases hv : v = []
    · simp [hv]
    · simp [hv]

/-- The one write of a request that is not ignored. -/
theorem WriteCustomLog_line (tab : Nat → Bool) (defaultIgnores : Ignores) (heap : Heap)
    (elapsed : List Byte) (params : LogFormatterParams)
    (hni : IsIgnore defaultIgnores params.URL.Path = false) :
    WriteCustomLog tab defaultIgnores heap elapsed params =
      [lineBeforeError tab elapsed params
        ++ errSegment (recordedError heap params.Request.ctx) ++ [0x0A]] := by
  simp only [WriteCustomLog, hni, annotateError_eq]
  simp

/-- C11 (suffix layout): for a request that is not ignored the bytes written
are the prefix, then ` XFF(xff)`, ` host(hostHeader)`, ` upstream(elapsed)`, the
trace header value when present and non-empty, directly after the closing
parenthesis, the error segment, and a newline, in that order; the line always
ends with a newline. -/
theorem WriteCustomLog_suffix (tab : Nat → Bool) (defaultIgnores : Ignores) (heap : Heap)
    (elapsed : List Byte) (params : LogFormatterParams)
    (hni : IsIgnore defaultIgnores params.URL.Path = false) :
    WriteCustomLog tab defaultIgnores heap elapsed params =
      [buildCommonLogLine tab params.Request params.URL params.TimeStamp params.StatusCode
          params.Size
        ++ lit " XFF(" ++ params.Request.HeaderGet (lit "X-Forwarded-For") ++ lit ")"
        ++ lit " host(" ++ params.Request.Host ++ lit ")"
        ++ lit " upstream(" ++ elapsed ++ lit ")"
        ++ traceSegment params.Request
        ++ errSegment (recordedError heap params.Request.ctx)
        ++ [0x0A]] ∧
    ∀ line ∈ WriteCustomLog tab defaultIgnores heap elapsed params,
      line.getLast? = some 0x0A := by
  have h := WriteCustomLog_line tab defaultIgnores heap elapsed params hni
  constructor
  · rw [h, lineBeforeError]
    simp only [trace_eq]
    simp only [List.append_assoc]
  · intro line hl
    rw [h, List.mem_singleton] at hl
    rw [hl, List.getLast?_append]
    rfl

/-- Witness of C11: `GET /foo` with `X-Forwarded-For: 10.0.0.1`, the trace
header `abc/123` and the recorded error `boom`. -/
theorem WriteCustomLog_suffix_witness :
    WriteCustomLog (fun _ => true) ⟨[]⟩ (fun _ => ⟨some boom⟩) (lit "1.5ms")
        ⟨tracedRequest ⟨some 0, none⟩, pathURL (lit "/foo"), exampleTime, 200, 512⟩
      = [lit ("1.2.3.4 - - [10/Oct/2000:13:55:36 -0700] \"GET /foo HTTP/1.1\" 200 512" ++
          " XFF(10.0.0.1) host(example.com) upstream(1.5ms)abc/123 err: boom\n")] :=
  ((WriteCustomLog_suffix (fun _ => true) ⟨[]⟩ (fun _ => ⟨some boom⟩) (lit "1.5ms")
      ⟨tracedRequest ⟨some 0, none⟩, pathURL (lit "/foo"), exampleTime, 200, 512⟩ rfl).1).trans
    (by decide)

/-- C12 (formatter entry point): when the URL path of the request is ignored
`WriteCustomLog` performs no write; otherwise it performs exactly one, whose
argument is the complete line. -/
theorem WriteCustomLog_writes (tab : Nat → Bool) (defaultIgnores : Ignores) (heap : Heap)
    (elapsed : List Byte) (params : LogFormatterParams) :
    (IsIgnore defaultIgnores params.URL.Path = true →
      WriteCustomLog tab defaultIgnores heap elapsed params = []) ∧
    (IsIgnore defaultIgnores params.URL.Path = false →
      WriteCustomLog tab defaultIgnores heap elapsed params =
        [annotateError heap params.Request.ctx (lineBeforeError tab elapsed params) ++ [0x0A]] ∧
      (WriteCustomLog tab defaultIgnores heap elapsed params).length = 1) := by
  constructor
  · intro h
    simp only [WriteCustomLog, h, if_true]
  · intro h
    simp [WriteCustomLog, h]

/-- Witness of C12: with the pattern `^/health` registered, the request for
the path `/health` is not written, and the one for `/foo` is written once. -/
theorem WriteCustomLog_writes_witness :
    WriteCustomLog (fun _ => true) (Ignore exampleCompile ⟨[]⟩ (lit "^/health")).ignores
        (fun _ => ⟨none⟩) (lit "1.5ms")
        ⟨getRequest (lit "/health") ⟨none, none⟩, pathURL (lit "/health"), exampleTime, 200, 2⟩
      = [] ∧
    (WriteCustomLog (fun _ => true) (Ignore exampleCompile ⟨[]⟩ (lit "^/health")).ignores
        (fun _ => ⟨none⟩) (lit "1.5ms")
        ⟨getRequest (lit "/foo") ⟨none, none⟩, pathURL (lit "/foo"), exampleTime, 200, 2⟩).length
      = 1 :=
  ⟨(WriteCustomLog_writes (fun _ => true) (Ignore exampleCompile ⟨[]⟩ (lit "^/health")).ignores
      (fun _ => ⟨none⟩) (lit "1.5ms")
      ⟨getRequest (lit "/health") ⟨none, none⟩, pathURL (lit "/health"), exampleTime, 200, 2⟩).1
      (by decide),
   ((WriteCustomLog_writes (fun _ => true) (Ignore exampleCompile ⟨[]⟩ (lit "^/health")).ignores
      (fun _ => ⟨none⟩) (lit "1.5ms")
      ⟨getRequest (lit "/foo") ⟨none, none⟩, pathURL (lit "/foo"), exampleTime, 200, 2⟩).2
      (by decide)).2⟩

/-! ## The ignore matcher: claims -/

theorem matchLoop_iff (ps : List Regexp) (b : List Byte) :
    matchLoop ps b = true ↔ ∃ re ∈ ps, re.Match b = true := by
  induction ps with
  | nil => simp [matchLoop]
  | cons re rest ih =>
    unfold matchLoop
    by_cases h : re.Match b = true
    · simp [h]
    · simp [h, ih]

theorem matchLoop_append (ps qs : List Regexp) (b : List Byte) :
    matchLoop (ps ++ qs) b = (matchLoop ps b || matchLoop qs b) := by
  induction ps with
  | nil => simp [matchLoop]
  | cons re rest ih =>
    simp only [List.cons_append, matchLoop]
    by_cases h : re.Match b = true
    · simp [h]
    · simp [h, ih]

theorem exampleCompile_aaa : exampleCompile (lit "^/aaa") = some (prefixRegexp (lit "/aaa")) := by
  unfold exampleCompile
  rw [if_neg (by decide), if_pos rfl]

theorem exampleCompile_unclosed : exampleCompile (lit "(") = none := by
  unfold exampleCompile
  rw [if_neg (by decide), if_neg (by decide), if_neg (by decide)]

/-- C13: `Match(s)` is true exactly when at least one pattern of the current
set matches `s`; it is false for every `s` when the set is empty, and it does
not depend on the order of the patterns. -/
theorem Match_iff (defaultIgnores : Ignores) (s : List Byte) :
    (Match defaultIgnores s = true ↔ ∃ re ∈ defaultIgnores.ps, re.Match s = true) ∧
    Match ⟨[]⟩ s = false ∧
    ∀ ps : List Regexp, ps.Perm defaultIgnores.ps → Match ⟨ps⟩ s = Match defaultIgnores s := by
  refine ⟨matchLoop_iff _ _, rfl, ?_⟩
  intro ps hp
  unfold Match
  rw [Bool.eq_iff_iff, matchLoop_iff, matchLoop_iff]
  constructor
  · rintro ⟨re, hm, hr⟩; exact ⟨re, hp.mem_iff.mp hm, hr⟩
  · rintro ⟨re, hm, hr⟩; exact ⟨re, hp.mem_iff.mpr hm, hr⟩

/-- Witness of C13: with only `^/health` registered, `/health` and
`/health/live` are ignored and `/other` is not. -/
theorem Match_iff_witness :
    Match ⟨[prefixRegexp (lit "/health")]⟩ (lit "/health") = true ∧
    Match ⟨[prefixRegexp (lit "/health")]⟩ (lit "/health/live") = true ∧
    Match ⟨[prefixRegexp (lit "/health")]⟩ (lit "/other") = false ∧
    (∃ re ∈ (⟨[prefixRegexp (lit "/health")]⟩ : Ignores).ps, re.Match (lit "/health") = true) :=
  ⟨by decide, by decide, by decide,
    ((Match_iff ⟨[prefixRegexp (lit "/health")]⟩ (lit "/health")).1).mp (by decide)⟩

/-- C14: `Ignore` is append-only.  For a pattern that compiles to `re`, the
set after `Ignore` is the prior set followed by `re`, nothing removed or
reordered, so `Match` after the call is `Match` before the call or a match of
`re`: what the new pattern matches is ignored whatever was registered earlier,
and what was ignored stays ignored. -/
theorem Ignore_append (compile : List Byte → Option Regexp) (defaultIgnores : Ignores)
    (pattern : List Byte) (re : Regexp) (hc : compile pattern = some re) (s : List Byte) :
    (Ignore compile defaultIgnores pattern).panicked = false ∧
    (Ignore compile defaultIgnores pattern).ignores.ps = defaultIgnores.ps ++ [re] ∧
    Match (Ignore compile defaultIgnores pattern).ignores s
      = (Match defaultIgnores s || re.Match s) ∧
    (re.Match s = true → Match (Ignore compile defaultIgnores pattern).ignores s = true) ∧
    (Match defaultIgnores s = true →
      Match (Ignore compile defaultIgnores pattern).ignores s = true) := by
  have hi : Ignore compile defaultIgnores pattern = ⟨⟨defaultIgnores.ps ++ [re]⟩, false⟩ := by
    simp [Ignore, MustCompile, hc]
  have hm : Match ⟨defaultIgnores.ps ++ [re]⟩ s = (Match defaultIgnores s || re.Match s) := by
    unfold Match
    rw [matchLoop_append]
    cases hr : re.Match s <;> simp [matchLoop, hr]
  rw [hi]
  refine ⟨rfl, rfl, hm, ?_, ?_⟩
  · intro h; rw [hm, h, Bool.or_true]
  · intro h; rw [hm, h, Bool.true_or]

/-- Witness of C14 (`Test_Ignores`): after `^/aaa` is registered `/aaa`,
`/aaabbb` and `/aaa/xxx` match, after `^/xxx/[a-z0-9]+$` is registered `/xxx/1`
and `/xxx/aaa` match, in either order of registration. -/
theorem Ignore_append_witness :
    (Ignore exampleCompile ⟨[]⟩ (lit "^/aaa")).ignores.ps = [] ++ [prefixRegexp (lit "/aaa")] ∧
    (∀ s ∈ [lit "/aaa", lit "/aaabbb", lit "/aaa/xxx"],
      Match (Ignore exampleCompile ⟨[]⟩ (lit "^/aaa")).ignores s = true ∧
      Match (Ignore exampleCompile (Ignore exampleCompile ⟨[]⟩ (lit "^/xxx/[a-z0-9]+$")).ignores
        (lit "^/aaa")).ignores s = true) ∧
    (∀ s ∈ [lit "/xxx/1", lit "/xxx/aaa"],
      Match (Ignore exampleCompile ⟨[]⟩ (lit "^/xxx/[a-z0-9]+$")).ignores s = true ∧
      Match (Ignore exampleCompile (Ignore exampleCompile ⟨[]⟩ (lit "^/aaa")).ignores
        (lit "^/xxx/[a-z0-9]+$")).ignores s = true) :=
  ⟨(Ignore_append exampleCompile ⟨[]⟩ (lit "^/aaa") (prefixRegexp (lit "/aaa"))
      exampleCompile_aaa []).2.1,
    by decide, by decide⟩

/-- C15: `Ignore(pattern)` panics exactly when the pattern does not compile,
and when it panics the ignore set is left as it was, with no entry appended. -/
theorem Ignore_panics (compile : List Byte → Option Regexp) (defaultIgnores : Ignores)
    (pattern : List Byte) :
    ((Ignore compile defaultIgnores pattern).panicked = true ↔ compile pattern = none) ∧
    ((Ignore compile defaultIgnores pattern).panicked = true →
      (Ignore compile defaultIgnores pattern).ignores = defaultIgnores) := by
  cases hc : compile pattern with
  | none => simp [Ignore, MustCompile, hc]
  | some re => simp [Ignore, MustCompile, hc]

/-- Witness of C15: the unclosed group `(` makes `Ignore` panic and leaves
the set with its one pattern; `^/aaa` does not panic. -/
theorem Ignore_panics_witness :
    (Ignore exampleCompile ⟨[prefixRegexp (lit "/health")]⟩ (lit "(")).panicked = true ∧
    (Ignore exampleCompile ⟨[prefixRegexp (lit "/health")]⟩ (lit "(")).ignores.ps.length = 1 ∧
    (Ignore exampleCompile ⟨[prefixRegexp (lit "/health")]⟩ (lit "^/aaa")).panicked = false :=
  ⟨((Ignore_panics exampleCompile ⟨[prefixRegexp (lit "/health")]⟩ (lit "(")).1).mpr
      exampleCompile_unclosed,
    by decide, by decide⟩

/-! ## The request context store: claims -/

theorem RecordBackend_reqs (st : State) (r : Nat) (be : List Byte) (q : Nat) :
    (RecordBackend st r be).1.reqs q =
      if q = r ∨ q = st.nextReq then
        { st.reqs r with ctx := { (st.reqs r).ctx with targetVal := some be } }
      else st.reqs q := by
  simp only [RecordBackend, WithContext]
  by_cases h1 : q = r
  · simp [h1]
  · by_cases h2 : q = st.nextReq
    · simp [h1, h2]
    · simp [h1, h2]

theorem RecordBackend_cells (st : State) (r : Nat) (be : List Byte) :
    (RecordBackend st r be).1.cells = st.cells := rfl

theorem RecordBackend_nextReq (st : State) (r : Nat) (be : List Byte) :
    (RecordBackend st r be).1.nextReq = st.nextReq + 1 := rfl

theorem RecordBackend_handle (st : State) (r : Nat) (be : List Byte) :
    (RecordBackend st r be).2 = st.nextReq := rfl

theorem RequestCtxWithError_reqs (st : State) (r : Nat) (err : Option GoError) :
    (RequestCtxWithError st r err).reqs = st.reqs := by
  unfold RequestCtxWithError
  cases (st.reqs r).ctx.errVal <;> rfl

theorem RequestCtxWithError_nextReq (st : State) (r : Nat) (err : Option GoError) :
    (RequestCtxWithError st r err).nextReq = st.nextReq := by
  unfold RequestCtxWithError
  cases (st.reqs r).ctx.errVal <;> rfl

/-- What a handle reads after an error is recorded through a handle with
the cell `p`: the recorded error when it shares the cell, what it read before
otherwise. -/
theorem readError_RequestCtxWithError (st : State) (r h p : Nat) (err : Option GoError)
    (hr : (st.reqs r).ctx.errVal = some p) :
    readError (RequestCtxWithError st r err) h =
      if (st.reqs h).ctx.errVal = some p then err else readError st h := by
  simp only [readError, recordedError, RequestCtxWithError, hr]
  cases hh : (st.reqs h).ctx.errVal with
  | none => simp
  | some q =>
    by_cases hq : q = p
    · simp [hq]
    · simp [hq]

theorem RequestCtxWithError_none (st : State) (r : Nat) (err : Option GoError)
    (hr : (st.reqs r).ctx.errVal = none) : RequestCtxWithError st r err = st := by
  simp only [RequestCtxWithError, hr]

theorem readBackend_apply (st : State) (op : Op) (h : Nat)
    (hb : (readBackend st h).isSome = true) : (readBackend (op.apply st) h).isSome = true := by
  cases op with
  | recordBackend r be =>
    simp only [Op.apply, readBackend, RecordBackend_reqs]
    by_cases hq : h = r ∨ h = st.nextReq
    · rw [if_pos hq]; rfl
    · rw [if_neg hq]; exact hb
  | recordError r err =>
    simp only [Op.apply, readBackend, RequestCtxWithError_reqs]
    exact hb

theorem readError_apply (st : State) (op : Op) (h : Nat) (hh : h < st.nextReq)
    (hk : op.keepsError = true) (he : (readError st h).isSome = true) :
    (readError (op.apply st) h).isSome = true := by
  cases op with
  | recordBackend r be =>
    simp only [Op.apply, readError, RecordBackend_reqs, RecordBackend_cells]
    by_cases hq : h = r ∨ h = st.nextReq
    · rw [if_pos hq]
      rcases hq with rfl | rfl
      · exact he
      · exact absurd hh (Nat.lt_irrefl _)
    · rw [if_neg hq]; exact he
  | recordError r err =>
    simp only [Op.apply]
    cases hr : (st.reqs r).ctx.errVal with
    | none => rw [RequestCtxWithError_none st r err hr]; exact he
    | some p =>
      rw [readError_RequestCtxWithError st r h p err hr]
      by_cases hs : (st.reqs h).ctx.errVal = some p
      · rw [if_pos hs]; exact hk
      · rw [if_neg hs]; exact he

theorem nextReq_apply (st : State) (op : Op) : st.nextReq ≤ (op.apply st).nextReq := by
  cases op with
  | recordBackend r be => simp [Op.apply, RecordBackend_nextReq]
  | recordError r err => simp [Op.apply, RequestCtxWithError_nextReq]

theorem readBackend_runOps (ops : List Op) :
    ∀ (st : State) (h : Nat), (readBackend st h).isSome = true →
      (readBackend (runOps st ops) h).isSome = true := by
  induction ops with
  | nil => intro st h hb; exact hb
  | cons op rest ih =>
    intro st h hb
    exact ih (op.apply st) h (readBackend_apply st op h hb)

theorem readError_runOps (ops : List Op) :
    ∀ (st : State) (h : Nat), h < st.nextReq → (∀ op ∈ ops, op.keepsError = true) →
      (readError st h).isSome = true → (readError (runOps st ops) h).isSome = true := by
  induction ops with
  | nil => intro st h _ _ he; exact he
  | cons op rest ih =>
    intro st h hh hk he
    exact ih (op.apply st) h (Nat.lt_of_lt_of_le hh (nextReq_apply st op))
      (fun o ho => hk o (List.mem_cons_of_mem _ ho))
      (readError_apply st op h hh (hk op (List.mem_cons_self _ _)) he)

/-- C16, counterexample: after the context is attached and the error `boom`
is recorded, `RequestCtxWithError` with a nil error resets the terminal error
to absent. -/
theorem error_reset_by_nil :
    (readError (PrepareCustomLog startState 0).1 (PrepareCustomLog startState 0).2).isSome
      = false ∧
    (readError (runOps (PrepareCustomLog startState 0).1
      [Op.recordError (PrepareCustomLog startState 0).2 (some boom)])
      (PrepareCustomLog startState 0).2).isSome = true ∧
    (readError (runOps (PrepareCustomLog startState 0).1
      [Op.recordError (PrepareCustomLog startState 0).2 (some boom),
       Op.recordError (PrepareCustomLog startState 0).2 none])
      (PrepareCustomLog startState 0).2).isSome = false := by
  decide

/-- C16, amended: right after `PrepareCustomLog` attaches the context the
terminal error is absent; through every later sequence of `RecordBackend` and
`RequestCtxWithError` calls, a resolved backend that is present stays present,
and a terminal error that is present stays present as long as no call of
`RequestCtxWithError` passes a nil error. -/
theorem context_sticky (st : State) (r h : Nat) (ops : List Op) :
    readError (PrepareCustomLog st r).1 (PrepareCustomLog st r).2 = none ∧
    (PrepareCustomLog st r).2 < (PrepareCustomLog st r).1.nextReq ∧
    ((readBackend st h).isSome = true → (readBackend (runOps st ops) h).isSome = true) ∧
    (h < st.nextReq → (∀ op ∈ ops, op.keepsError = true) →
      (readError st h).isSome = true → (readError (runOps st ops) h).isSome = true) := by
  refine ⟨?_, ?_, readBackend_runOps ops st h, readError_runOps ops st h⟩
  · simp [readError, recordedError, PrepareCustomLog, WithContext]
  · simp [PrepareCustomLog, WithContext]

/-- Witness of C16: after the context is attached, a backend and the error
`boom` recorded, both stay present through a second backend and a second
error. -/
theorem context_sticky_witness :
    (readBackend (runOps (runOps (PrepareCustomLog startState 0).1
        [Op.recordBackend 1 (lit "http://10.0.0.5:8080"), Op.recordError 1 (some boom)])
        [Op.recordBackend 1 (lit "http://10.0.0.6:8080"), Op.recordError 2 (some late)])
      1).isSome = true ∧
    (readError (runOps (runOps (PrepareCustomLog startState 0).1
        [Op.recordBackend 1 (lit "http://10.0.0.5:8080"), Op.recordError 1 (some boom)])
        [Op.recordBackend 1 (lit "http://10.0.0.6:8080"), Op.recordError 2 (some late)])
      1).isSome = true :=
  ⟨(context_sticky (runOps (PrepareCustomLog startState 0).1
        [Op.recordBackend 1 (lit "http://10.0.0.5:8080"), Op.recordError 1 (some boom)]) 0 1
      [Op.recordBackend 1 (lit "http://10.0.0.6:8080"), Op.recordError 2 (some late)]).2.2.1
      (by decide),
   (context_sticky (runOps (PrepareCustomLog startState 0).1
        [Op.recordBackend 1 (lit "http://10.0.0.5:8080"), Op.recordError 1 (some boom)]) 0 1
      [Op.recordBackend 1 (lit "http://10.0.0.6:8080"), Op.recordError 2 (some late)]).2.2.2
      (by decide) (by decide) (by decide)⟩

/-- C17: `RequestCtxWithError` mutates the shared error holder in place and
the last write wins.  After two calls on a request with an attached context
the error read is the second one, through every handle that shares the
context, among them the handles that existed before the call and the handle
returned by `RecordBackend`, and it is the error logged; on a request with no
attached context the call changes nothing. -/
theorem recordError_last_write (st : State) (r h p : Nat) (e1 e2 : Option GoError)
    (be : List Byte) (hr : (st.reqs r).ctx.errVal = some p)
    (hh : (st.reqs h).ctx.errVal = some p) :
    readError (RequestCtxWithError (RequestCtxWithError st r e1) r e2) h = e2 ∧
    readError (RequestCtxWithError (RequestCtxWithError st r e1) r e2) r = e2 ∧
    readError (RequestCtxWithError (RecordBackend st r be).1 r e2) (RecordBackend st r be).2
      = e2 ∧
    readError (RequestCtxWithError (RecordBackend st r be).1 (RecordBackend st r be).2 e2) r
      = e2 ∧
    (∀ (tab : Nat → Bool) (defaultIgnores : Ignores) (elapsed : List Byte) (url : URL)
        (ts : Time) (status size : Int) (e : GoError),
      e2 = some e → IsIgnore defaultIgnores url.Path = false →
      WriteCustomLog tab defaultIgnores
          (RequestCtxWithError (RequestCtxWithError st r e1) r e2).cells elapsed
          ⟨(RequestCtxWithError (RequestCtxWithError st r e1) r e2).reqs h, url, ts, status,
            size⟩
        = [lineBeforeError tab elapsed ⟨st.reqs h, url, ts, status, size⟩
            ++ lit " err: " ++ e.msg ++ [0x0A]]) ∧
    (∀ r0, (st.reqs r0).ctx.errVal = none → RequestCtxWithError st r0 e2 = st) := by
  have hr1 : ((RequestCtxWithError st r e1).reqs r).ctx.errVal = some p := by
    rw [RequestCtxWithError_reqs]; exact hr
  have hh1 : ((RequestCtxWithError st r e1).reqs h).ctx.errVal = some p := by
    rw [RequestCtxWithError_reqs]; exact hh
  have k1 : readError (RequestCtxWithError (RequestCtxWithError st r e1) r e2) h = e2 := by
    rw [readError_RequestCtxWithError _ r h p e2 hr1, if_pos hh1]
  have hbr : (((RecordBackend st r be).1).reqs r).ctx.errVal = some p := by
    rw [RecordBackend_reqs, if_pos (Or.inl rfl)]; exact hr
  have hbn : (((RecordBackend st r be).1).reqs (RecordBackend st r be).2).ctx.errVal
      = some p := by
    rw [RecordBackend_reqs, RecordBackend_handle, if_pos (Or.inr rfl)]; exact hr
  refine ⟨k1, ?_, ?_, ?_, ?_, ?_⟩
  · rw [readError_RequestCtxWithError _ r r p e2 hr1, if_pos hr1]
  · rw [readError_RequestCtxWithError _ r _ p e2 hbr, if_pos hbn]
  · rw [readError_RequestCtxWithError _ _ r p e2 hbn, if_pos hbr]
  · intro tab defaultIgnores elapsed url ts status size e he hni
    have hrec : recordedError (RequestCtxWithError (RequestCtxWithError st r e1) r e2).cells
        ((RequestCtxWithError (RequestCtxWithError st r e1) r e2).reqs h).ctx = some e := by
      have := k1
      unfold readError at this
      rw [this, he]
    rw [WriteCustomLog_line tab defaultIgnores _ elapsed _ hni, hrec]
    simp only [RequestCtxWithError_reqs, errSegment, List.append_assoc]
  · intro r0 h0
    exact RequestCtxWithError_none st r0 e2 h0

/-- Witness of C17: `boom` then `late` recorded on the request a context was
attached to; `late` is read through that handle and through the handle
`RecordBackend` returned before the calls. -/
theorem recordError_last_write_witness :
    (readError (RequestCtxWithError (RequestCtxWithError
        (RecordBackend (PrepareCustomLog startState 0).1 1 (lit "http://10.0.0.5:8080")).1
        1 (some boom)) 1 (some late)) 2).map GoError.msg = some (lit "late") ∧
    (readError (RequestCtxWithError (RequestCtxWithError
        (RecordBackend (PrepareCustomLog startState 0).1 1 (lit "http://10.0.0.5:8080")).1
        1 (some boom)) 1 (some late)) 1).map GoError.msg = some (lit "late") :=
  ⟨congrArg (Option.map GoError.msg)
      (recordError_last_write
        (RecordBackend (PrepareCustomLog startState 0).1 1 (lit "http://10.0.0.5:8080")).1
        1 2 0 (some boom) (some late) [] rfl rfl).1,
   congrArg (Option.map GoError.msg)
      (recordError_last_write
        (RecordBackend (PrepareCustomLog startState 0).1 1 (lit "http://10.0.0.5:8080")).1
        1 2 0 (some boom) (some late) [] rfl rfl).2.1⟩

/-- C18: `RecordBackend(r, be)` returns a handle whose context holds the string
form of `be` as resolved backend and overwrites `*r` with the same request, so
the backend read through `r` is the same; the error holder is the same cell
with the same recorded error, every other field of the request and every other
request are unchanged; a second call replaces the backend by the later value. -/
theorem RecordBackend_frame (st : State) (r q : Nat) (be be2 : List Byte) :
    readBackend (RecordBackend st r be).1 (RecordBackend st r be).2 = some be ∧
    readBackend (RecordBackend st r be).1 r = some be ∧
    (RecordBackend st r be).1.reqs r
      = { st.reqs r with ctx := { (st.reqs r).ctx with targetVal := some be } } ∧
    (RecordBackend st r be).1.reqs (RecordBackend st r be).2 = (RecordBackend st r be).1.reqs r ∧
    (RecordBackend st r be).1.cells = st.cells ∧
    ((RecordBackend st r be).1.reqs r).ctx.errVal = (st.reqs r).ctx.errVal ∧
    readError (RecordBackend st r be).1 r = readError st r ∧
    readError (RecordBackend st r be).1 (RecordBackend st r be).2 = readError st r ∧
    (q ≠ r → q ≠ st.nextReq → (RecordBackend st r be).1.reqs q = st.reqs q) ∧
    readBackend (RecordBackend (RecordBackend st r be).1 r be2).1 r = some be2 ∧
    readBackend (RecordBackend (RecordBackend st r be).1 (RecordBackend st r be).2 be2).1
      (RecordBackend st r be).2 = some be2 := by
  have hr := RecordBackend_reqs st r be r
  rw [if_pos (Or.inl rfl)] at hr
  have hn := RecordBackend_reqs st r be (RecordBackend st r be).2
  rw [RecordBackend_handle, if_pos (Or.inr rfl)] at hn
  rw [← RecordBackend_handle st r be] at hn
  refine ⟨?_, ?_, hr, ?_, rfl, ?_, ?_, ?_, ?_, ?_, ?_⟩
  · simp only [readBackend, hn]
  · simp only [readBackend, hr]
  · rw [hn, hr]
  · rw [hr]
  · simp only [readError, hr, RecordBackend_cells]
    rfl
  · simp only [readError, hn, RecordBackend_cells]
    rfl
  · intro h1 h2
    rw [RecordBackend_reqs, if_neg (by simp [h1, h2])]
  · simp only [readBackend]
    rw [RecordBackend_reqs, if_pos (Or.inl rfl)]
  · simp only [readBackend]
    rw [RecordBackend_reqs, if_pos (Or.inl rfl)]

/-- Witness of C18: the backend `http://10.0.0.5:8080` recorded on the request a
context was attached to, read through the returned handle and through the
original one; the request `0` is untouched. -/
theorem RecordBackend_frame_witness :
    readBackend (RecordBackend (PrepareCustomLog startState 0).1 1
      (lit "http://10.0.0.5:8080")).1 2 = some (lit "http://10.0.0.5:8080") ∧
    readBackend (RecordBackend (PrepareCustomLog startState 0).1 1
      (lit "http://10.0.0.5:8080")).1 1 = some (lit "http://10.0.0.5:8080") ∧
    (RecordBackend (PrepareCustomLog startState 0).1 1 (lit "http://10.0.0.5:8080")).1.reqs 0
      = (PrepareCustomLog startState 0).1.reqs 0 :=
  ⟨(RecordBackend_frame (PrepareCustomLog startState 0).1 1 0 (lit "http://10.0.0.5:8080")
      []).1,
   (RecordBackend_frame (PrepareCustomLog startState 0).1 1 0 (lit "http://10.0.0.5:8080")
      []).2.1,
   (RecordBackend_frame (PrepareCustomLog startState 0).1 1 0 (lit "http://10.0.0.5:8080")
      []).2.2.2.2.2.2.2.2.1 (by decide) (by decide)⟩

/-! ## Reading the output back -/

theorem readToken_escape (c : Byte) (u : List Byte) :
    readToken (0x5C :: c :: u) =
      if c.val = 0x78 then ([toByte (hexValue (u.take 2))], u.drop 2)
      else if c.val = 0x75 then (EncodeRune (hexValue (u.take 4)), u.drop 4)
      else if c.val = 0x55 then (EncodeRune (hexValue (u.take 8)), u.drop 8)
      else ([unescapeLetter c], u) := by
  simp only [readToken]
  rw [if_neg (by decide)]

theorem readToken_plain (b : Byte) (t : List Byte) (h : b.val ≠ 0x5C) :
    readToken (b :: t) =
      ((b :: t).take (decodeHead (b :: t)).2, (b :: t).drop (decodeHead (b :: t)).2) := by
  simp only [readToken]
  rw [if_pos h]

theorem hexValue_two (d1 d2 : Nat) (h1 : d1 < 16) (h2 : d2 < 16) :
    hexValue [hexDigit d1, hexDigit d2] = d1 * 16 + d2 := by
  simp only [hexValue, List.foldl_cons, List.foldl_nil, hexDigitVal_hexDigit d1 h1,
    hexDigitVal_hexDigit d2 h2]
  omega

theorem readToken_hex2 (a : Byte) (X : List Byte) :
    readToken ([0x5C, 0x78, hexDigit (a.val / 16), hexDigit (a.val % 16)] ++ X) = ([a], X) := by
  have ha := a.isLt
  simp only [List.cons_append, List.nil_append]
  rw [readToken_escape, if_pos (by decide)]
  simp only [List.take_succ_cons, List.take_zero, List.drop_succ_cons, List.drop_zero]
  rw [hexValue_two _ _ (by omega) (Nat.mod_lt _ (by decide)),
    toByte_of_val a (by omega)]

theorem readToken_simple (c : Byte) (X : List Byte) (h1 : c.val ≠ 0x78) (h2 : c.val ≠ 0x75)
    (h3 : c.val ≠ 0x55) : readToken ([0x5C, c] ++ X) = ([unescapeLetter c], X) := by
  simp only [List.cons_append, List.nil_append]
  rw [readToken_escape, if_neg h1, if_neg h2, if_neg h3]

theorem readToken_u4 (r : Nat) (X : List Byte) (hr : r < 0x10000) :
    readToken ([0x5C, 0x75] ++ hexDigits 4 r ++ X) = (EncodeRune r, X) := by
  simp only [List.cons_append, List.nil_append]
  rw [readToken_escape, if_neg (by decide), if_pos (by decide),
    List.take_left' (hexDigits_length 4 r), List.drop_left' (hexDigits_length 4 r),
    hexValue_hexDigits 4 r (by norm_num; omega)]

theorem readToken_u8 (r : Nat) (X : List Byte) (hr : r ≤ 0x10FFFF) :
    readToken ([0x5C, 0x55] ++ hexDigits 8 r ++ X) = (EncodeRune r, X) := by
  simp only [List.cons_append, List.nil_append]
  rw [readToken_escape, if_neg (by decide), if_neg (by decide), if_pos (by decide),
    List.take_left' (hexDigits_length 8 r), List.drop_left' (hexDigits_length 8 r),
    hexValue_hexDigits 8 r (by norm_num; omega)]

/-- The encoding of a valid code point other than the backslash is read back
as itself. -/
theorem readToken_encode {r : Nat} (hv : ValidRune r = true) (hb : r ≠ 0x5C) (X : List Byte) :
    readToken (EncodeRune r ++ X) = (EncodeRune r, X) := by
  obtain ⟨a, t, hs, hd, _⟩ := decodeHead_encode hv X
  have ha : a.val ≠ 0x5C := by
    by_cases hr : r < 0x80
    · rw [encode_one_eq (by omega)] at hs
      simp only [List.cons_append, List.nil_append, List.cons.injEq] at hs
      rw [← hs.1, toByte_val]
      omega
    · have hh := encode_high hv (by omega : 0x80 ≤ r)
      have hm : a ∈ EncodeRune r := by
        cases he : EncodeRune r with
        | nil =>
          have := encode_wellFormed hv (by omega : 0x80 ≤ r) X
          rw [he] at this
          have h2 := (wellFormed_sound this).2.2.2.2
          simp at h2
        | cons x xs =>
          rw [he] at hs
          simp only [List.cons_append, List.cons.injEq] at hs
          rw [← hs.1]
          exact List.mem_cons_self _ _
      have := hh a hm
      omega
  rw [hs, readToken_plain a t ha, hd, ← hs, List.take_left, List.drop_left]

set_option maxRecDepth 100000 in
theorem unescape_control_table : ∀ b : Byte, b.val < 0x20 →
    readToken (controlEscape b) = ([b], []) := by
  decide

theorem readToken_append_escape (c : Byte) (u X : List Byte) (h : 2 ≤ u.length ∨ (c.val ≠ 0x78))
    (h4 : c.val ≠ 0x75) (h8 : c.val ≠ 0x55) :
    readToken (0x5C :: c :: u ++ X) =
      ((readToken (0x5C :: c :: u)).1, (readToken (0x5C :: c :: u)).2 ++ X) := by
  simp only [List.cons_append]
  rw [readToken_escape, readToken_escape]
  by_cases hx : c.val = 0x78
  · have hl : 2 ≤ u.length := by
      rcases h with h | h
      · exact h
      · exact absurd hx h
    rw [if_pos hx, if_pos hx, List.take_append_of_le_length hl,
      List.drop_append_of_le_length hl]
  · rw [if_neg hx, if_neg hx, if_neg h4, if_neg h4, if_neg h8, if_neg h8]

/-- The escape of a control byte is read back as that byte. -/
theorem readToken_control (b : Byte) (hb : b.val < 0x20) (X : List Byte) :
    readToken (controlEscape b ++ X) = ([b], X) := by
  have ht := unescape_control_table b hb
  have hform : ∃ c u, controlEscape b = 0x5C :: c :: u ∧ (2 ≤ u.length ∨ c.val ≠ 0x78) ∧
      c.val ≠ 0x75 ∧ c.val ≠ 0x55 := by
    unfold controlEscape
    split_ifs
    · exact ⟨_, _, rfl, Or.inr (by decide), by decide, by decide⟩
    · exact ⟨_, _, rfl, Or.inr (by decide), by decide, by decide⟩
    · exact ⟨_, _, rfl, Or.inr (by decide), by decide, by decide⟩
    · exact ⟨_, _, rfl, Or.inr (by decide), by decide, by decide⟩
    · exact ⟨_, _, rfl, Or.inr (by decide), by decide, by decide⟩
    · exact ⟨_, _, rfl, Or.inr (by decide), by decide, by decide⟩
    · exact ⟨_, _, rfl, Or.inr (by decide), by decide, by decide⟩
    · exact ⟨_, _, rfl, Or.inl (by simp), by decide, by decide⟩
  obtain ⟨c, u, hc, h2, h4, h8⟩ := hform
  rw [hc] at ht ⊢
  rw [readToken_append_escape c u X h2 h4 h8, ht]
  rfl

/-- The bytes an iteration appends for a valid code point from `0x20` on,
other than the quote and the backslash, are read back as its encoding. -/
theorem readToken_rune (tab : Nat → Bool) (a : Byte) {r w : Nat} (hv : ValidRune r = true)
    (hr : 0x20 ≤ r) (hq : r ≠ 0x22) (hb : r ≠ 0x5C) (hw : w = 1 → r < 0x80) (X : List Byte) :
    readToken (quoteStep tab a r w ++ X) = (EncodeRune r, X) := by
  cases hp : IsPrint tab r with
  | true =>
    rw [quoteStep_plain tab a ((plainRune_iff tab r).mpr ⟨hv, hp, hq, hb⟩) hw]
    exact readToken_encode hv hb X
  | false =>
    rw [quoteStep_unicode tab a hv hr hp hw, unicodeEscape]
    by_cases hlt : r < 0x10000
    · rw [if_pos hlt]
      exact readToken_u4 r X hlt
    · rw [if_neg hlt]
      exact readToken_u8 r X ((validRune_iff r).mp hv).1

/-- The bytes an iteration appends are read back as the bytes it consumed. -/
theorem readToken_step (tab : Nat → Bool) (a : Byte) (rest X : List Byte) :
    readToken (quoteStep tab a (decodeHead (a :: rest)).1 (decodeHead (a :: rest)).2 ++ X)
      = ((a :: rest).take (decodeHead (a :: rest)).2, X) := by
  rcases decodeHead_cases a rest with ⟨ha, h⟩ | ⟨ha, h⟩ | ⟨ha, r, w, hw, h⟩
  · rw [h]
    simp only [List.take_succ_cons, List.take_zero]
    by_cases hc : a.val < 0x20
    · rw [quoteStep_control tab a hc]
      exact readToken_control a hc X
    by_cases hq : a.val = 0x22
    · have : a = 0x22 := Fin.ext hq
      subst this
      rw [show ((0x22 : Byte).val) = 0x22 from rfl, quoteStep_quote]
      exact readToken_simple _ X (by decide) (by decide) (by decide)
    by_cases hb : a.val = 0x5C
    · have : a = 0x5C := Fin.ext hb
      subst this
      rw [show ((0x5C : Byte).val) = 0x5C from rfl, quoteStep_backslash]
      exact readToken_simple _ X (by decide) (by decide) (by decide)
    · have hv : ValidRune a.val = true := by rw [validRune_iff]; omega
      rw [readToken_rune tab a hv (by omega) hq hb (fun _ => ha) X,
        encode_one_eq (by omega), toByte_self]
  · rw [h, quoteStep_malformed]
    exact readToken_hex2 a X
  · rw [h]
    have hs := wellFormed_sound hw
    rw [readToken_rune tab a hs.1 (by omega) (by omega) (by omega) (fun h1 => by omega) X,
      hs.2.2.1]

/-- The escaper is injective, with a bound on the length of the first
string. -/
theorem appendQuoted_inj_bounded (tab : Nat → Bool) :
    ∀ (n : Nat) (s1 s2 : List Byte), s1.length ≤ n →
      appendQuoted tab [] s1 = appendQuoted tab [] s2 → s1 = s2 := by
  have hne : ∀ (a : Byte) (rest : List Byte), appendQuoted tab [] (a :: rest) ≠ [] := by
    intro a rest he
    have hw := decodeHead_width a rest
    rw [appendQuoted_cons, appendQuoted_buf, List.nil_append] at he
    have hr := readToken_step tab a rest
      (appendQuoted tab [] ((a :: rest).drop (decodeHead (a :: rest)).2))
    rw [he] at hr
    have h1 : ((a :: rest).take (decodeHead (a :: rest)).2).length = 0 := by
      have := congrArg (fun p => p.1.length) hr
      simpa [readToken] using this.symm
    rw [List.length_take, List.length_cons] at h1
    omega
  intro n
  induction n with
  | zero =>
    intro s1 s2 h he
    have hs : s1 = [] := List.length_eq_zero.mp (Nat.le_zero.mp h)
    subst hs
    cases s2 with
    | nil => rfl
    | cons a rest => exact absurd he.symm (hne a rest)
  | succ n ih =>
    intro s1 s2 h he
    cases s1 with
    | nil =>
      cases s2 with
      | nil => rfl
      | cons a rest => exact absurd he.symm (hne a rest)
    | cons a1 r1 =>
      cases s2 with
      | nil => exact absurd he (hne a1 r1)
      | cons a2 r2 =>
        have hw1 := decodeHead_width a1 r1
        rw [appendQuoted_cons tab [] a1 r1, appendQuoted_buf, List.nil_append,
          appendQuoted_cons tab [] a2 r2, appendQuoted_buf tab _ (List.drop _ (a2 :: r2)),
          List.nil_append] at he
        have h1 := readToken_step tab a1 r1
          (appendQuoted tab [] ((a1 :: r1).drop (decodeHead (a1 :: r1)).2))
        have h2 := readToken_step tab a2 r2
          (appendQuoted tab [] ((a2 :: r2).drop (decodeHead (a2 :: r2)).2))
        rw [he, h2] at h1
        simp only [Prod.mk.injEq] at h1
        have hd := ih _ _ (by simp only [List.length_drop, List.length_cons] at *; omega)
          h1.2.symm
        rw [← List.take_append_drop (decodeHead (a1 :: r1)).2 (a1 :: r1),
          ← List.take_append_drop (decodeHead (a2 :: r2)).2 (a2 :: r2), hd, h1.1]

/-! ## Injectivity and the clamp branch: claims -/

/-- C19: the escaper is injective: two byte strings, valid UTF-8 or not, with
the same escaped form are equal, so the escaped request target of a log line
determines the original bytes. -/
theorem appendQuoted_injective (tab : Nat → Bool) (s1 s2 : List Byte)
    (h : appendQuoted tab [] s1 = appendQuoted tab [] s2) : s1 = s2 :=
  appendQuoted_inj_bounded tab s1.length s1 s2 (Nat.le_refl _) h

/-- Witness of C19: the raw byte `0x01` and the four-character text `\x01`
are escaped to different outputs, `\x01` and `\\x01`. -/
theorem appendQuoted_injective_witness :
    appendQuoted (fun _ => true) [] [0x01] = lit "\\x01" ∧
    appendQuoted (fun _ => true) [] (lit "\\x01") = lit "\\\\x01" ∧
    appendQuoted (fun _ => true) [] [0x01] ≠ appendQuoted (fun _ => true) [] (lit "\\x01") ∧
    ([0xC3, 0x28] : List Byte) = [0xC3, 0x28] :=
  ⟨by decide, by decide,
   fun h => absurd (appendQuoted_injective (fun _ => true) [0x01] (lit "\\x01") h) (by decide),
   appendQuoted_injective (fun _ => true) [0xC3, 0x28] [0xC3, 0x28] rfl⟩

theorem readToken_ufffd : readToken (lit "\\ufffd" ++ []) = (EncodeRune 0xFFFD, []) := by
  decide

/-- C20: the clamp branch of the escaper is unreachable.  Every rune an
iteration decodes is at most `0x10FFFF`, so the case `r > utf8.MaxRune` is
never taken; and, U+FFFD being printable in the tables of `strconv.IsPrint`, no
iteration appends the escape `\ufffd`: a validly encoded U+FFFD passes through
unchanged and a malformed byte is appended as `\x` and two hex digits. -/
theorem clamp_unreachable (tab : Nat → Bool) (a : Byte) (rest buf : List Byte) :
    (decodeHead (a :: rest)).1 ≤ MaxRune ∧
    ¬ (decodeHead (a :: rest)).1 > MaxRune ∧
    (tab 0xFFFD = true →
      quoteStep tab a (decodeHead (a :: rest)).1 (decodeHead (a :: rest)).2 ≠ lit "\\ufffd") ∧
    (tab 0xFFFD = true →
      appendQuoted tab buf (EncodeRune 0xFFFD ++ rest)
        = appendQuoted tab (buf ++ EncodeRune 0xFFFD) rest) ∧
    (decodeHead (a :: rest) = (RuneError, 1) →
      quoteStep tab a (decodeHead (a :: rest)).1 (decodeHead (a :: rest)).2
        = [0x5C, 0x78, hexDigit (a.val / 16), hexDigit (a.val % 16)]) := by
  have hmax : (decodeHead (a :: rest)).1 ≤ MaxRune :=
    ((validRune_iff _).mp (decodeHead_valid a rest)).1
  have hplain : tab 0xFFFD = true → PlainRune tab 0xFFFD = true := by
    intro hp
    rw [plainRune_iff]
    refine ⟨by decide, ?_, by decide, by decide⟩
    unfold IsPrint
    rw [if_neg (by decide)]
    exact hp
  refine ⟨hmax, Nat.not_lt.mpr hmax, ?_, ?_, ?_⟩
  · intro hp htok
    have hstep := readToken_step tab a rest []
    rw [htok, readToken_ufffd] at hstep
    simp only [Prod.mk.injEq, and_true] at hstep
    obtain ⟨a2, t2, hs, hd, _⟩ := decodeHead_encode (r := 0xFFFD) (by decide)
      ((a :: rest).drop (decodeHead (a :: rest)).2)
    rw [hstep, List.take_append_drop] at hs
    rw [← hs] at hd
    rw [hd] at htok
    rw [quoteStep_plain tab a (hplain hp) (by decide)] at htok
    exact absurd htok (by decide)
  · intro hp
    obtain ⟨a2, ha2, h1⟩ := appendQuoted_encode tab (r := 0xFFFD) (by decide) buf rest
    rw [ha2, quoteStep_plain tab a2 (hplain hp) (by decide)]
  · intro hd
    rw [hd]
    exact quoteStep_malformed tab a

/-- Witness of C20: with U+FFFD printable, its encoding `EF BF BD` is appended
unchanged, and the malformed byte `0xFF` is appended as `\xff`. -/
theorem clamp_unreachable_witness :
    appendQuoted (fun _ => true) [] (EncodeRune 0xFFFD ++ []) = EncodeRune 0xFFFD ∧
    EncodeRune 0xFFFD = [0xEF, 0xBF, 0xBD] ∧
    quoteStep (fun _ => true) 0xEF (decodeHead [0xEF, 0xBF, 0xBD]).1
      (decodeHead [0xEF, 0xBF, 0xBD]).2 ≠ lit "\\ufffd" ∧
    quoteStep (fun _ => true) 0xFF (decodeHead [0xFF]).1 (decodeHead [0xFF]).2 = lit "\\xff" :=
  ⟨((clamp_unreachable (fun _ => true) 0xEF [] []).2.2.2.1 rfl).trans (by decide),
   by decide,
   (clamp_unreachable (fun _ => true) 0xEF [0xBF, 0xBD] []).2.2.1 rfl,
   ((clamp_unreachable (fun _ => true) 0xFF [] []).2.2.2.2 (by decide)).trans (by decide)⟩

end Customaccesslog
